import Mathlib

/-!
Verification development for the markdown-mcp repository: a shallow
embedding, over `List Char` strings, of the markdown → DOCX conversion
pipeline (server tool wrapper, image/mermaid pre-filters, line scanner,
style lookup, batch loop, inline formatting), together with theorems
settling the specification claims about it.

External libraries (python-docx, python-markdown, pypandoc, requests,
the filesystem) are treated as black boxes, modelled by oracle
functions, following the specification's stated narrow read/write
contracts.
-/

/-- Python strings are modelled as lists of characters. -/
abbrev Str := List Char

/-- Python's notion of whitespace for `str.strip()` / `\s` (ASCII range,
which is all the repository's inputs use): space, tab, newline, carriage
return, vertical tab, form feed. -/
def pyIsSpace (c : Char) : Bool :=
  c = ' ' || c = '\t' || c = '\n' || c = '\r' || c = Char.ofNat 11 || c = Char.ofNat 12

/-- Leading-whitespace strip (Python `str.lstrip()`). -/
def stripStart (s : Str) : Str := s.dropWhile pyIsSpace

/-- Trailing-whitespace strip (Python `str.rstrip()`). -/
def stripEnd (s : Str) : Str := (s.reverse.dropWhile pyIsSpace).reverse

/-- Python `str.strip()`: drop whitespace from both ends. -/
def pyStrip (s : Str) : Str := stripEnd (stripStart s)

/-! ### C1: the server tool `convert_markdown_to_docx` (server.py lines 15-54)

The underlying conversion `PandocConverter.convert` either returns an
output path or raises; the wrapper's `try/except` is embedded by taking
that outcome as an `Except String String` value. The tool body is a
straight translation of the `try` and `except` branches; being a total
Lean function, it returns a result dictionary on every input and never
raises. -/

/-- The dictionary returned by the `convert_markdown_to_docx` tool
(keys `success`, `output_file`, `error`, `message`, `converter`;
absent keys are `none`). -/
structure ToolResult where
  success : Bool
  output_file : Option String
  error : Option String
  message : String
  converter : Option String
deriving Repr, DecidableEq

/-- `server.convert_markdown_to_docx`: wraps the underlying pandoc
conversion (`underlying`, the outcome of
`converter.convert(markdown_content, output_filename, metadata)`) in
`try/except`, returning the success dictionary from the `try` branch or
the failure dictionary from the `except` branch. -/
def convert_markdown_to_docx (underlying : Except String String)
    (output_filename : String) : ToolResult :=
  match underlying with
  | .ok output_path =>
      { success := true
        output_file := some output_path
        error := none
        message := "Successfully converted markdown to " ++ output_filename
        converter := some "pandoc" }
  | .error e =>
      { success := false
        output_file := none
        error := some e
        message := "Conversion failed"
        converter := none }

/-- C1: for every outcome of the underlying conversion the tool returns a
result dictionary (totality is by construction): on success it carries
`success = true` and the output file path; when the underlying conversion
raises, it carries `success = false`, the exception text under `error`,
and the message `"Conversion failed"`. -/
theorem c1_tool_result_shape (underlying : Except String String) (fn : String) :
    (∀ p, underlying = .ok p →
      (convert_markdown_to_docx underlying fn).success = true ∧
      (convert_markdown_to_docx underlying fn).output_file = some p) ∧
    (∀ e, underlying = .error e →
      (convert_markdown_to_docx underlying fn).success = false ∧
      (convert_markdown_to_docx underlying fn).error = some e ∧
      (convert_markdown_to_docx underlying fn).message = "Conversion failed") := by
  constructor
  · intro p hp; subst hp; exact ⟨rfl, rfl⟩
  · intro e he; subst he; exact ⟨rfl, rfl, rfl⟩

theorem c1_tool_result_shape_witness :
    (convert_markdown_to_docx (.ok "out.docx") "out.docx").success = true ∧
    (convert_markdown_to_docx (.ok "out.docx") "out.docx").output_file = some "out.docx" :=
  (c1_tool_result_shape (.ok "out.docx") "out.docx").1 "out.docx" rfl

/-! ### C9: heading level clamp (converter.py lines 73-78)

For a stripped line beginning with `#`, the source computes
`level = len(line) - len(line.lstrip('#'))` and calls
`doc.add_heading(text, level=min(level, 9))`. -/

/-- The `level` local of `_convert_content`'s heading branch:
`len(line) - len(line.lstrip('#'))` on the stripped line. -/
def headingLevel (line : Str) : Nat :=
  (pyStrip line).length - ((pyStrip line).dropWhile (fun c => c = '#')).length

/-- The `level=` argument passed to `doc.add_heading`: `min(level, 9)`. -/
def headingLevelPassed (line : Str) : Nat :=
  min (headingLevel line) 9

/-- C9: for every line whose stripped form begins with `#`, the level
passed to `add_heading` equals the minimum of the number of leading `#`
characters and 9, and in particular is at most 9. -/
theorem c9_heading_level_clamped (line : Str)
    (_h : ['#'].isPrefixOf (pyStrip line) = true) :
    headingLevelPassed line =
      min ((pyStrip line).takeWhile (fun c => c = '#')).length 9 ∧
    headingLevelPassed line ≤ 9 := by
  have htd : ((pyStrip line).takeWhile (fun c => c = '#')).length +
      ((pyStrip line).dropWhile (fun c => c = '#')).length = (pyStrip line).length := by
    conv_rhs => rw [← List.takeWhile_append_dropWhile (p := fun c => c = '#') (l := pyStrip line)]
    exact (List.length_append _ _).symm
  constructor
  · unfold headingLevelPassed headingLevel
    omega
  · exact min_le_right _ _

theorem c9_heading_level_clamped_witness :
    headingLevelPassed ("############ deep heading".data) =
      min (("############ deep heading".data.takeWhile (fun c => c = '#')).length) 9 ∧
    headingLevelPassed ("############ deep heading".data) ≤ 9 := by
  have h := c9_heading_level_clamped ("############ deep heading".data) (by decide)
  have hs : pyStrip ("############ deep heading".data) = "############ deep heading".data := by
    decide
  rw [hs] at h
  exact h

/-! ### C5: `BatchProcessor.process_directory` (batch_processor.py lines 15-69)

The filesystem is modelled by two oracle inputs: whether the input
directory exists, and the list of `.md` files found there, each carried
with its stem and the outcome of the read/convert/save sequence of the
loop body (`Except`: `ok` = all three succeed, `error e` = some step
raised `e`). -/

/-- One entry of the `results` list. -/
structure BatchFileResult where
  input : String
  output : Option String
  status : String
  error : Option String
deriving Repr, DecidableEq

/-- An `.md` file as the batch loop sees it: its path, its stem, and the
outcome of reading, converting and saving it. -/
structure BatchFile where
  path : String
  stem : String
  outcome : Except String Unit
deriving Repr

/-- The dictionary returned by `process_directory`: either a dictionary
with only an `error` key, or the full accounting dictionary. -/
inductive BatchOutcome where
  | errorOnly (msg : String)
  | report (processed successful failed : Nat) (results : List BatchFileResult)
deriving Repr

/-- The loop body of `process_directory` for one file: a `success` entry
when reading/converting/saving succeeded, an `error` entry when any step
raised. -/
def batchFileEntry (output_dir : String) (f : BatchFile) : BatchFileResult :=
  match f.outcome with
  | .ok _ =>
      { input := f.path
        output := some (output_dir ++ "/" ++ f.stem ++ ".docx")
        status := "success"
        error := none }
  | .error e =>
      { input := f.path
        output := none
        status := "error"
        error := some e }

/-- `BatchProcessor.process_directory`: early `error`-only returns for a
missing directory or an empty `.md` listing, otherwise one result entry
per file and the accounting dictionary computed from `results` exactly as
in the source (`processed = len(results)`, `successful`/`failed` by
filtering on `status`). -/
def process_directory (dirExists : Bool) (md_files : List BatchFile)
    (input_dir output_dir : String) : BatchOutcome :=
  if ¬dirExists then
    .errorOnly ("Input directory not found: " ++ input_dir)
  else if md_files.isEmpty then
    .errorOnly "No markdown files found in directory"
  else
    let results := md_files.map (batchFileEntry output_dir)
    .report results.length
      (results.filter (fun r => r.status == "success")).length
      (results.filter (fun r => r.status == "error")).length
      results

/-- Every file entry's status is `"success"` or `"error"`, and the two
filters partition the result list. -/
theorem batch_filter_partition (output_dir : String) (fs : List BatchFile) :
    ((fs.map (batchFileEntry output_dir)).filter (fun r => r.status == "success")).length +
      ((fs.map (batchFileEntry output_dir)).filter (fun r => r.status == "error")).length =
      fs.length := by
  induction fs with
  | nil => rfl
  | cons f t ih =>
      rcases hf : f.outcome with e | e <;>
        simp [batchFileEntry, hf, List.filter, ← ih] <;> omega

/-- C5: on an existing directory with at least one `.md` file,
`process_directory` returns the accounting dictionary with
`processed = len(results) = number of files`, `processed = successful +
failed`, one entry per file (inputs in order), and every entry's status
`"success"` or `"error"`; on a missing directory or an empty listing it
returns a dictionary with only an `error` key. -/
theorem c5_batch_accounting (dirExists : Bool) (md_files : List BatchFile)
    (din dout : String) :
    (dirExists = true → md_files ≠ [] →
      ∃ p s f rs, process_directory dirExists md_files din dout = .report p s f rs ∧
        p = rs.length ∧ rs.length = md_files.length ∧ p = s + f ∧
        rs.map (fun r => r.input) = md_files.map (fun g => g.path) ∧
        ∀ r ∈ rs, r.status = "success" ∨ r.status = "error") ∧
    (dirExists = false ∨ md_files = [] →
      ∃ m, process_directory dirExists md_files din dout = .errorOnly m) := by
  constructor
  · intro hd hne
    subst hd
    obtain ⟨g, t, rfl⟩ : ∃ g t, md_files = g :: t := by
      cases md_files with
      | nil => exact absurd rfl hne
      | cons g t => exact ⟨g, t, rfl⟩
    refine ⟨_, _, _, _, rfl, rfl, by simp, ?_, ?_, ?_⟩
    · simp only [List.length_map]
      exact (batch_filter_partition dout (g :: t)).symm
    · simp only [List.map_map]
      apply List.map_congr_left
      intro f _
      rcases hf : f.outcome with e | e <;> simp [batchFileEntry, hf]
    · intro r hr
      simp only [List.mem_map] at hr
      obtain ⟨f, _, rfl⟩ := hr
      rcases hf : f.outcome with e | e <;> simp [batchFileEntry, hf]
  · rintro (hd | hm)
    · subst hd; exact ⟨_, rfl⟩
    · subst hm
      cases dirExists with
      | false => exact ⟨_, rfl⟩
      | true => exact ⟨_, rfl⟩

theorem c5_batch_accounting_witness :
    ∃ p s f rs,
      process_directory true
        [⟨"docs/a.md", "a", .ok ()⟩, ⟨"docs/b.md", "b", .error "boom"⟩]
        "docs" "out" = .report p s f rs ∧
      p = rs.length ∧ rs.length = 2 ∧ p = s + f ∧
      rs.map (fun r => r.input) = ["docs/a.md", "docs/b.md"] ∧
      ∀ r ∈ rs, r.status = "success" ∨ r.status = "error" := by
  have h := (c5_batch_accounting true
    [⟨"docs/a.md", "a", .ok ()⟩, ⟨"docs/b.md", "b", .error "boom"⟩]
    "docs" "out").1 rfl (List.cons_ne_nil _ _)
  simpa using h

/-! ### C6: tag-to-style lookup (style_mapper.py lines 7-177)

`StyleMapper` holds two dictionaries: `_create_default_mappings`
(Markdown element → `WordStyle`) and the `tag_mapping` of
`map_html_tag_to_element` (lower-cased HTML tag → Markdown element);
`get_style_for_html_tag` composes them after `html_tag.lower()`.
Dictionaries with distinct literal keys are embedded by association
lists. -/

/-- Enumeration of supported Markdown elements (`MarkdownElement`). -/
inductive MarkdownElement where
  | H1 | H2 | H3 | H4 | H5 | H6
  | PARAGRAPH | EMPHASIS | STRONG | CODE_INLINE | STRIKETHROUGH
  | BLOCKQUOTE | CODE_BLOCK | HORIZONTAL_RULE
  | UNORDERED_LIST | ORDERED_LIST | LIST_ITEM
  | TASK_LIST_CHECKED | TASK_LIST_UNCHECKED
  | TABLE | TABLE_HEADER | TABLE_CELL
  | LINK | IMAGE
deriving Repr, DecidableEq

/-- `WordStyle`: a Word style definition with optional properties
(constructor defaults are `None` in the source). -/
structure WordStyle where
  name : String
  font_name : Option String := none
  font_size : Option Nat := none
  bold : Option Bool := none
  italic : Option Bool := none
  underline : Option Bool := none
  color : Option String := none
  background_color : Option String := none
  paragraph_style : Option String := none
deriving Repr, DecidableEq

/-- `StyleMapper._create_default_mappings`: the default element → style
dictionary, entry for entry. -/
def createDefaultMappings : List (MarkdownElement × WordStyle) :=
  [ (.H1, { name := "Heading 1", paragraph_style := some "Heading 1" }),
    (.H2, { name := "Heading 2", paragraph_style := some "Heading 2" }),
    (.H3, { name := "Heading 3", paragraph_style := some "Heading 3" }),
    (.H4, { name := "Heading 4", paragraph_style := some "Heading 4" }),
    (.H5, { name := "Heading 5", paragraph_style := some "Heading 5" }),
    (.H6, { name := "Heading 6", paragraph_style := some "Heading 6" }),
    (.PARAGRAPH, { name := "Normal", paragraph_style := some "Normal" }),
    (.EMPHASIS, { name := "Emphasis", italic := some true }),
    (.STRONG, { name := "Strong", bold := some true }),
    (.CODE_INLINE, { name := "Code Inline", font_name := some "Courier New",
                     background_color := some "light_gray" }),
    (.STRIKETHROUGH, { name := "Strikethrough", underline := some true }),
    (.BLOCKQUOTE, { name := "Quote", paragraph_style := some "Quote" }),
    (.CODE_BLOCK, { name := "Code Block", font_name := some "Courier New",
                    font_size := some 10, background_color := some "light_gray",
                    paragraph_style := some "No Spacing" }),
    (.HORIZONTAL_RULE, { name := "Horizontal Rule", paragraph_style := some "Normal" }),
    (.UNORDERED_LIST, { name := "List Bullet", paragraph_style := some "List Bullet" }),
    (.ORDERED_LIST, { name := "List Number", paragraph_style := some "List Number" }),
    (.LIST_ITEM, { name := "List Item", paragraph_style := some "List Paragraph" }),
    (.TASK_LIST_CHECKED, { name := "Task List Checked", paragraph_style := some "List Bullet" }),
    (.TASK_LIST_UNCHECKED, { name := "Task List Unchecked",
                             paragraph_style := some "List Bullet" }),
    (.TABLE, { name := "Table", paragraph_style := some "Table Grid" }),
    (.TABLE_HEADER, { name := "Table Header", bold := some true,
                      background_color := some "light_blue" }),
    (.TABLE_CELL, { name := "Table Cell", paragraph_style := some "Normal" }),
    (.LINK, { name := "Hyperlink", color := some "blue", underline := some true }),
    (.IMAGE, { name := "Image", paragraph_style := some "Normal" }) ]

/-- `StyleMapper.get_word_style`: `self._style_map.get(markdown_element)`. -/
def get_word_style (e : MarkdownElement) : Option WordStyle :=
  createDefaultMappings.lookup e

/-- Python `str.lower()` (ASCII). -/
def pyLower (s : Str) : Str := s.map Char.toLower

/-- The `tag_mapping` dictionary of `map_html_tag_to_element`. -/
def tagMapping : List (Str × MarkdownElement) :=
  [ ("h1".data, .H1), ("h2".data, .H2), ("h3".data, .H3),
    ("h4".data, .H4), ("h5".data, .H5), ("h6".data, .H6),
    ("p".data, .PARAGRAPH),
    ("em".data, .EMPHASIS), ("i".data, .EMPHASIS),
    ("strong".data, .STRONG), ("b".data, .STRONG),
    ("code".data, .CODE_INLINE),
    ("del".data, .STRIKETHROUGH), ("s".data, .STRIKETHROUGH),
    ("blockquote".data, .BLOCKQUOTE),
    ("pre".data, .CODE_BLOCK),
    ("hr".data, .HORIZONTAL_RULE),
    ("ul".data, .UNORDERED_LIST), ("ol".data, .ORDERED_LIST),
    ("li".data, .LIST_ITEM),
    ("table".data, .TABLE), ("th".data, .TABLE_HEADER), ("td".data, .TABLE_CELL),
    ("a".data, .LINK), ("img".data, .IMAGE) ]

/-- `StyleMapper.map_html_tag_to_element`: `tag_mapping.get(html_tag.lower())`. -/
def map_html_tag_to_element (html_tag : Str) : Option MarkdownElement :=
  tagMapping.lookup (pyLower html_tag)

/-- `StyleMapper.get_style_for_html_tag`: the composition of the two
lookups (`None` when the tag is unmapped). -/
def get_style_for_html_tag (html_tag : Str) : Option WordStyle :=
  match map_html_tag_to_element html_tag with
  | some e => get_word_style e
  | none => none

/-- The supported tag set named by the claim. -/
def supportedTags : List Str :=
  [ "h1".data, "h2".data, "h3".data, "h4".data, "h5".data, "h6".data,
    "p".data, "em".data, "i".data, "strong".data, "b".data, "code".data,
    "del".data, "s".data, "blockquote".data, "pre".data, "hr".data,
    "ul".data, "ol".data, "li".data, "table".data, "th".data, "td".data,
    "a".data, "img".data ]

/-- An association-list lookup on a key outside the key set is `none`. -/
theorem lookup_eq_none_of_not_mem_keys {β : Type} (l : List (Str × β)) (k : Str)
    (h : k ∉ l.map Prod.fst) : l.lookup k = none := by
  induction l with
  | nil => rfl
  | cons p t ih =>
      simp only [List.map_cons, List.mem_cons] at h
      push_neg at h
      have hbeq : (k == p.1) = false := by
        cases hkp : k == p.1 with
        | false => rfl
        | true => exact absurd (by simpa using hkp) h.1
      obtain ⟨a, b⟩ := p
      simp only [List.lookup]
      simp only at hbeq
      rw [hbeq]
      exact ih h.2

/-- C6: the lookup is total and case-insensitive on the supported tag
set — every tag whose lower-cased form is in the set yields a
`WordStyle`; each heading tag `hN` (N = 1..6) maps to paragraph style
`"Heading N"`; every other tag yields `None`. -/
theorem c6_style_lookup_total (t : Str) (n : Nat) :
    (pyLower t ∈ supportedTags → (get_style_for_html_tag t).isSome = true) ∧
    (pyLower t ∉ supportedTags → get_style_for_html_tag t = none) ∧
    (1 ≤ n → n ≤ 6 →
      ∃ ws, get_style_for_html_tag ('h' :: (Nat.repr n).data) = some ws ∧
        ws.paragraph_style = some ("Heading " ++ Nat.repr n)) := by
  refine ⟨?_, ?_, ?_⟩
  · intro ht
    have hall : supportedTags.all
        (fun k => (match tagMapping.lookup k with
                   | some e => get_word_style e
                   | none => none).isSome) = true := by decide
    have := List.all_eq_true.mp hall _ ht
    simpa [get_style_for_html_tag, map_html_tag_to_element] using this
  · intro ht
    have hkeys : tagMapping.map Prod.fst = supportedTags := by decide
    have hnone : tagMapping.lookup (pyLower t) = none := by
      apply lookup_eq_none_of_not_mem_keys
      rw [hkeys]; exact ht
    simp [get_style_for_html_tag, map_html_tag_to_element, hnone]
  · intro h1 h6
    interval_cases n
    · exact ⟨_, rfl, rfl⟩
    · exact ⟨_, rfl, rfl⟩
    · exact ⟨_, rfl, rfl⟩
    · exact ⟨_, rfl, rfl⟩
    · exact ⟨_, rfl, rfl⟩
    · exact ⟨_, rfl, rfl⟩

theorem c6_style_lookup_total_witness :
    (get_style_for_html_tag "TaBle".data).isSome = true ∧
    get_style_for_html_tag "div".data = none ∧
    ∃ ws, get_style_for_html_tag ('h' :: (Nat.repr 3).data) = some ws ∧
      ws.paragraph_style = some ("Heading " ++ Nat.repr 3) :=
  ⟨(c6_style_lookup_total "TaBle".data 3).1 (by decide),
   (c6_style_lookup_total "div".data 3).2.1 (by decide),
   (c6_style_lookup_total "div".data 3).2.2 (by decide) (by decide)⟩

/-! ### C7: termination of the line-by-line scanner (converter.py lines 60-160)

`_convert_content` is a `while i < len(lines)` loop; each branch either
sets `i += 1` or assigns `i` from `_add_code_block` / `_add_table`.
`convert_step` below is the per-iteration index update, branch for
branch; the claim is that it strictly increases the index. -/

/-- `MarkdownConverter._is_table_row`. -/
def is_table_row (line : Str) : Bool :=
  line.contains '|' && ['|'].isPrefixOf (pyStrip line) && ['|'].isSuffixOf (pyStrip line)

/-- The `while` loop of `_add_code_block`: advance past code lines until
a closing fence or the end of input, returning the final `i`. -/
def codeBlockScan (lines : List Str) (i : Nat) : Nat :=
  if h : i < lines.length ∧ "```".data.isPrefixOf (pyStrip (lines.getD i [])) = false then
    codeBlockScan lines (i + 1)
  else i
termination_by lines.length - i
decreasing_by omega

/-- `MarkdownConverter._add_code_block`'s effect on the loop index:
starts at `start_idx + 1`, scans to the closing fence, and returns
`i + 1` when the fence was found (`i < len(lines)`) else `i`. -/
def add_code_block_next (lines : List Str) (start_idx : Nat) : Nat :=
  let i := codeBlockScan lines (start_idx + 1)
  if i < lines.length then i + 1 else i

/-- The row-collecting `while` loop of `_add_table` (its return value on
every return path is this final `i`). -/
def tableScan (lines : List Str) (i : Nat) : Nat :=
  if h : i < lines.length ∧ is_table_row (lines.getD i []) = true then
    tableScan lines (i + 1)
  else i
termination_by lines.length - i
decreasing_by omega

/-- `MarkdownConverter._add_table`'s effect on the loop index. -/
def add_table_next (lines : List Str) (start_idx : Nat) : Nat :=
  tableScan lines start_idx

/-- One iteration of the `_convert_content` dispatch loop: the value of
`i` after processing line `i` (blank, heading, code fence, table row, or
plain paragraph). -/
def convert_step (lines : List Str) (i : Nat) : Nat :=
  let line := pyStrip (lines.getD i [])
  if line = [] then i + 1
  else if ['#'].isPrefixOf line then i + 1
  else if "```".data.isPrefixOf line then add_code_block_next lines i
  else if is_table_row line then add_table_next lines i
  else i + 1

theorem le_codeBlockScan (lines : List Str) (i : Nat) : i ≤ codeBlockScan lines i := by
  rw [codeBlockScan]
  split
  · next h => exact Nat.le_trans (Nat.le_succ i) (le_codeBlockScan lines (i + 1))
  · exact Nat.le_refl i
termination_by lines.length - i
decreasing_by omega

theorem le_tableScan (lines : List Str) (i : Nat) : i ≤ tableScan lines i := by
  rw [tableScan]
  split
  · next h => exact Nat.le_trans (Nat.le_succ i) (le_tableScan lines (i + 1))
  · exact Nat.le_refl i
termination_by lines.length - i
decreasing_by omega

/-- Stripping keeps membership. -/
theorem mem_of_mem_pyStrip {c : Char} {l : Str} (h : c ∈ pyStrip l) : c ∈ l := by
  unfold pyStrip stripEnd stripStart at h
  have h1 := (List.dropWhile_sublist (l := (l.dropWhile pyIsSpace).reverse) (p := pyIsSpace))
  have h2 := h1.mem (by simpa using h)
  have h3 : c ∈ l.dropWhile pyIsSpace := by simpa using h2
  exact (List.dropWhile_sublist (l := l) (p := pyIsSpace)).mem h3

theorem dropWhile_idem (p : Char → Bool) (l : Str) :
    (l.dropWhile p).dropWhile p = l.dropWhile p := by
  induction l with
  | nil => rfl
  | cons a t ih =>
      by_cases hp : p a = true
      · simp [List.dropWhile, hp, ih]
      · simp only [Bool.not_eq_true] at hp
        simp [List.dropWhile, hp]

/-- `stripEnd` yields a prefix of its argument. -/
theorem stripEnd_prefix (l : Str) : stripEnd l <+: l := by
  unfold stripEnd
  have h : (l.reverse.dropWhile pyIsSpace) <:+ l.reverse := List.dropWhile_suffix pyIsSpace
  have h2 := List.reverse_prefix.mpr h
  simpa using h2

theorem stripStart_of_head_not_space (l : Str)
    (h : l = [] ∨ ∃ c t, l = c :: t ∧ pyIsSpace c = false) : stripStart l = l := by
  rcases h with h | ⟨c, t, rfl, hc⟩
  · subst h; rfl
  · simp [stripStart, List.dropWhile, hc]

/-- `pyStrip` is idempotent. -/
theorem pyStrip_idem (l : Str) : pyStrip (pyStrip l) = pyStrip l := by
  have hstart : stripStart (pyStrip l) = pyStrip l := by
    apply stripStart_of_head_not_space
    rcases hs : pyStrip l with _ | ⟨c, t⟩
    · exact Or.inl rfl
    · right
      refine ⟨c, t, rfl, ?_⟩
      have hpre : pyStrip l <+: stripStart l := by
        unfold pyStrip
        exact stripEnd_prefix (stripStart l)
      rw [hs] at hpre
      obtain ⟨u, hu⟩ := hpre
      rcases hss : stripStart l with _ | ⟨d, r⟩
      · rw [hss] at hu; simp at hu
      · rw [hss] at hu
        have hcd : c = d := by
          have := congrArg (fun x => x.head?) hu
          simpa using this
        have hd : pyIsSpace d = false := by
          have hdw : stripStart (stripStart l) = stripStart l := by
            unfold stripStart
            exact dropWhile_idem pyIsSpace l
          rw [hss] at hdw
          by_contra hdt
          simp only [Bool.not_eq_false] at hdt
          simp [stripStart, List.dropWhile, hdt] at hdw
          have := congrArg List.length hdw
          simp at this
          have := (List.dropWhile_sublist (l := r) (p := pyIsSpace)).length_le
          omega
        rw [hcd]; exact hd
  unfold pyStrip
  rw [show stripStart (stripEnd (stripStart l)) = stripEnd (stripStart l) from hstart]
  unfold stripEnd
  rw [List.reverse_reverse]
  rw [dropWhile_idem]

/-- `_is_table_row` gives the same answer on a line and on its stripped
form, so the dispatcher's guard (on the stripped line) implies the
guard of `_add_table`'s row loop (on the raw line). -/
theorem is_table_row_pyStrip (l : Str) : is_table_row (pyStrip l) = is_table_row l := by
  unfold is_table_row
  rw [pyStrip_idem]
  by_cases hp : ['|'].isPrefixOf (pyStrip l) = true
  · have hmem : '|' ∈ pyStrip l := by
      rcases hs : pyStrip l with _ | ⟨c, t⟩
      · rw [hs] at hp; simp [List.isPrefixOf] at hp
      · rw [hs] at hp
        simp [List.isPrefixOf] at hp
        subst hp
        exact List.mem_cons_self _ _
    have h1 : (pyStrip l).contains '|' = true := by
      simpa [List.contains] using hmem
    have h2 : l.contains '|' = true := by
      simpa [List.contains] using mem_of_mem_pyStrip hmem
    rw [h1, h2]
  · simp only [Bool.not_eq_true] at hp
    rw [hp]
    simp

/-- C7: each iteration of `_convert_content`'s loop strictly increases
the line index — in particular in the code-block branch (which consumes
at least the opening fence even when no closing fence exists) and the
table branch (which consumes at least one table row) — so the scanner
terminates on every finite input. -/
theorem c7_scanner_strictly_advances (lines : List Str) (i : Nat)
    (hi : i < lines.length) : i < convert_step lines i := by
  unfold convert_step
  simp only []
  split
  · exact Nat.lt_succ_self i
  · split
    · exact Nat.lt_succ_self i
    · split
      · unfold add_code_block_next
        have hscan := le_codeBlockScan lines (i + 1)
        dsimp only
        split
        · omega
        · omega
      · split
        · next hempty hhash hfence htab =>
            unfold add_table_next
            rw [tableScan]
            have hrow : is_table_row (lines.getD i []) = true := by
              rw [← is_table_row_pyStrip]
              exact htab
            rw [dif_pos ⟨hi, hrow⟩]
            have := le_tableScan lines (i + 1)
            omega
        · exact Nat.lt_succ_self i

theorem c7_scanner_strictly_advances_witness :
    0 < convert_step ["| a | b |".data, "|---|---|".data, "| 1 | 2 |".data] 0 :=
  c7_scanner_strictly_advances ["| a | b |".data, "|---|---|".data, "| 1 | 2 |".data] 0
    (by decide)

/-! ### C4: `_preprocess_markdown` (simple_improved_converter.py lines 73-85)

Three `re.sub` passes: YAML front-matter removal
(`^---\s*\n.*?\n---\s*\n`, DOTALL, anchored at position 0), the two
task-list passes (`^(\s*)- \[x\]` / `^(\s*)- \[ \]`, MULTILINE), and the
strikethrough pass (`~~([^~]+)~~`).

The source's replacement templates are the raw strings `r'\\1- ☑'`,
`r'\\1- ☐'` and `r'<del>\\1</del>'`. In a Python replacement template
`\\` is an escaped backslash, so these insert the literal two-character
text `\1` — they do **not** reference capture group 1. The embedding
reproduces this faithfully; claim C4 (text and indentation preserved)
is settled against it. -/

/-- The greedy `\s*\n` element: all candidate consumed lengths `k + 1`
(whitespace run `k` then one newline) in the regex engine's
greedy-backtracking order (longest first). -/
def wsNlCandidates (t : Str) : List Nat :=
  let w := t.takeWhile pyIsSpace
  (((List.range w.length).filter (fun i => w.getD i ' ' = '\n')).reverse).map (fun k => k + 1)

/-- The `.*?\n---\s*\n` tail of the front-matter pattern: scan for the
earliest position where `\n---` is followed by a successful `\s*\n`,
returning the remainder of the string after the whole match. -/
def yamlTailSearch : Str → Option Str
  | [] => none
  | c :: rest =>
      if "\n---".data.isPrefixOf (c :: rest) then
        let v := (c :: rest).drop 4
        match wsNlCandidates v with
        | kk :: _ => some (v.drop kk)
        | [] => yamlTailSearch rest
      else yamlTailSearch rest

/-- `re.sub(r'^---\s*\n.*?\n---\s*\n', '', content, flags=re.DOTALL)`:
without MULTILINE the `^` anchors only at position 0, so at most the
leading front-matter block is removed. The outer `\s*\n` backtracks over
its candidates until the tail search succeeds. -/
def yamlSub (content : Str) : Str :=
  if "---".data.isPrefixOf content then
    let t := content.drop 3
    match (wsNlCandidates t).findSome? (fun kk => yamlTailSearch' (t.drop kk)) with
    | some rest => rest
    | none => content
  else content
where
  /-- `.*?\n---\s*\n` can also match with `.*?` empty when the remainder
  itself starts at a newline; the regex tail search starts at offset 0 of
  the remainder. -/
  yamlTailSearch' (u : Str) : Option Str := yamlTailSearch u

/-- The `^(\s*)- \[x\]` match attempt at a line start: the greedy
whitespace run backtracks to the largest `k` (at most the whitespace-run
length) such that `- [` mark `]` follows; the match consumes `k + 5`
characters. -/
def taskMatchK (mark : Char) (s : Str) : Option Nat :=
  (((List.range ((s.takeWhile pyIsSpace).length + 1)).reverse)).findSome?
    (fun k =>
      if ('-' :: ' ' :: '[' :: mark :: [']']).isPrefixOf (s.drop k) then some k else none)

/-- One MULTILINE `re.sub` pass for a task-list pattern: scan position
by position, attempting a match only at line starts; on a match emit the
(literal) replacement and resume after the match, otherwise copy one
character. The fuel argument (instantiated with the string length, which
suffices since every step consumes at least one character) makes the
recursion structural. -/
def taskSubGo (mark : Char) (rep : Str) : Nat → Bool → Str → Str
  | 0, _, s => s
  | _ + 1, _, [] => []
  | fuel + 1, atLineStart, c :: rest =>
      if atLineStart then
        match taskMatchK mark (c :: rest) with
        | some k => rep ++ taskSubGo mark rep fuel false ((c :: rest).drop (k + 5))
        | none => c :: taskSubGo mark rep fuel (c = '\n') rest
      else c :: taskSubGo mark rep fuel (c = '\n') rest

/-- The whole MULTILINE task-list pass (position 0 is a line start). -/
def taskSub (mark : Char) (rep : Str) (s : Str) : Str :=
  taskSubGo mark rep s.length true s

/-- `re.sub(r'~~([^~]+)~~', r'<del>\\1</del>', content)`: at each
position try `~~`, a nonempty tilde-free run, `~~`; on success emit the
(literal) replacement and resume after the match, else copy one
character. -/
def strikeSubGo : Nat → Str → Str
  | 0, s => s
  | _ + 1, [] => []
  | fuel + 1, '~' :: '~' :: t =>
      let run := t.takeWhile (fun c => c ≠ '~')
      let rest := t.drop run.length
      if run ≠ [] ∧ "~~".data.isPrefixOf rest then
        "<del>\\1</del>".data ++ strikeSubGo fuel (rest.drop 2)
      else
        '~' :: strikeSubGo fuel ('~' :: t)
  | fuel + 1, c :: t => c :: strikeSubGo fuel t

/-- The whole strikethrough pass. -/
def strikeSub (s : Str) : Str := strikeSubGo s.length s

/-- `SimpleImprovedConverter._preprocess_markdown`: the four `re.sub`
passes in source order (front matter, checked boxes, unchecked boxes,
strikethrough). -/
def preprocess_markdown (content : Str) : Str :=
  strikeSub
    (taskSub ' ' "\\1- ☐".data
      (taskSub 'x' "\\1- ☑".data
        (yamlSub content)))

/-- C4 (code bug): evaluating `_preprocess_markdown` at the failing
inputs. Because the replacement templates escape the backslash
(`r'\\1'`), a strikethrough span's text is replaced by the literal
two-character sequence `\1` instead of being preserved, and a task-list
line's leading indentation is likewise destroyed — contradicting the
evident intent of the capture groups `([^~]+)` and `(\s*)`. -/
theorem c4_preprocess_markdown_bug :
    preprocess_markdown "~~abc~~".data = "<del>\\1</del>".data ∧
    preprocess_markdown "  - [x] done".data = "\\1- ☑ done".data ∧
    preprocess_markdown "- [ ] todo".data = "\\1- ☐ todo".data ∧
    preprocess_markdown "~~abc~~".data ≠ "<del>abc</del>".data ∧
    preprocess_markdown "  - [x] done".data ≠ "  - ☑ done".data := by
  refine ⟨by decide, by decide, by decide, by decide, by decide⟩

/-! ### Shared machinery: Python `str.replace` and substring occurrence

`str.replace(old, new)` replaces the non-overlapping occurrences of
`old` left to right. Both image and mermaid filters drive their
rewrites through it, so its interaction with the matched spans is the
heart of claims C2 and C3. -/

/-- Does `pat` occur as a contiguous substring of `s`? -/
def occursIn (pat : Str) : Str → Bool
  | [] => pat.isEmpty
  | c :: t => pat.isPrefixOf (c :: t) || occursIn pat t

/-- Python `str.replace(old, new)` (all non-overlapping occurrences,
left to right), with fuel for structural recursion; one character is
consumed per step at least, so fuel = length suffices. A match consumes
`pat.length` characters and emits `repl`. (The guard `pat ≠ []` is
vacuous in this development: every literal replaced by the filters is
nonempty.) -/
def replaceAllGo (pat repl : Str) : Nat → Str → Str
  | 0, s => s
  | _ + 1, [] => []
  | fuel + 1, c :: t =>
      if pat.isPrefixOf (c :: t) ∧ pat ≠ [] then
        repl ++ replaceAllGo pat repl fuel ((c :: t).drop pat.length)
      else
        c :: replaceAllGo pat repl fuel t

/-- Python `str.replace(old, new)`. -/
def replaceAll (pat repl s : Str) : Str := replaceAllGo pat repl s.length s

theorem replaceAllGo_fuel (pat repl : Str) :
    ∀ f₁ f₂ s, s.length ≤ f₁ → s.length ≤ f₂ →
      replaceAllGo pat repl f₁ s = replaceAllGo pat repl f₂ s := by
  intro f₁
  induction f₁ with
  | zero =>
      intro f₂ s h1 _
      have hs : s = [] := List.length_eq_zero.mp (Nat.le_zero.mp h1)
      subst hs
      cases f₂ <;> rfl
  | succ f ih =>
      intro f₂ s h1 h2
      cases s with
      | nil => cases f₂ <;> rfl
      | cons c t =>
          cases f₂ with
          | zero => simp at h2
          | succ f₂' =>
              simp only [replaceAllGo]
              by_cases hc : pat.isPrefixOf (c :: t) ∧ pat ≠ []
              · rw [if_pos hc, if_pos hc]
                congr 1
                have hplen : 1 ≤ pat.length := by
                  cases hp : pat with
                  | nil => exact absurd hp hc.2
                  | cons a b => simp [hp]
                apply ih
                · simp only [List.length_drop, List.length_cons] at *
                  omega
                · simp only [List.length_drop, List.length_cons] at *
                  omega
              · rw [if_neg hc, if_neg hc]
                congr 1
                apply ih
                · simp only [List.length_cons] at h1; omega
                · simp only [List.length_cons] at h2; omega

theorem replaceAll_cons (pat repl : Str) (c : Char) (t : Str) :
    replaceAll pat repl (c :: t) =
      if pat.isPrefixOf (c :: t) ∧ pat ≠ [] then
        repl ++ replaceAll pat repl ((c :: t).drop pat.length)
      else c :: replaceAll pat repl t := by
  show replaceAllGo pat repl (t.length + 1) (c :: t) = _
  simp only [replaceAllGo]
  by_cases hc : pat.isPrefixOf (c :: t) ∧ pat ≠ []
  · rw [if_pos hc, if_pos hc]
    congr 1
    have hplen : 1 ≤ pat.length := by
      cases hp : pat with
      | nil => exact absurd hp hc.2
      | cons a b => simp [hp]
    apply replaceAllGo_fuel
    · simp only [List.length_drop, List.length_cons]; omega
    · exact Nat.le_refl _
  · rw [if_neg hc, if_neg hc]
    rfl

/-- A string free of occurrences of `pat` is returned unchanged. -/
theorem replaceAll_of_not_occurs (pat repl : Str) :
    ∀ s, occursIn pat s = false → replaceAll pat repl s = s := by
  intro s
  induction s with
  | nil => intro _; rfl
  | cons c t ih =>
      intro h
      simp only [occursIn, Bool.or_eq_false_iff] at h
      rw [replaceAll_cons, if_neg]
      · rw [ih h.2]
      · rintro ⟨hpre, -⟩
        rw [h.1] at hpre
        exact Bool.false_ne_true hpre

/-- When no occurrence of `pat` begins strictly inside `x` (with the
following text in view), `replaceAll` passes `x` through, replaces the
explicit occurrence of `pat`, and continues on `y`. -/
theorem replaceAll_skip_then_hit (pat repl : Str) (hne : pat ≠ []) :
    ∀ x y, (∀ i, i < x.length → pat.isPrefixOf ((x ++ (pat ++ y)).drop i) = false) →
      replaceAll pat repl (x ++ (pat ++ y)) = x ++ repl ++ replaceAll pat repl y := by
  intro x
  induction x with
  | nil =>
      intro y _
      obtain ⟨p, pt, rfl⟩ : ∃ p pt, pat = p :: pt := by
        cases hp : pat with
        | nil => exact absurd hp hne
        | cons p pt => exact ⟨p, pt, rfl⟩
      have hdrop : ((p :: pt) ++ y).drop (p :: pt).length = y := List.drop_left _ _
      simp only [List.nil_append]
      rw [show (p :: pt) ++ y = p :: (pt ++ y) from rfl, replaceAll_cons,
        if_pos ⟨List.isPrefixOf_iff_prefix.mpr ⟨y, rfl⟩, hne⟩]
      rw [show (p :: (pt ++ y)).drop (p :: pt).length = y from hdrop]
  | cons a x' ih =>
      intro y hno
      rw [show (a :: x') ++ (pat ++ y) = a :: (x' ++ (pat ++ y)) from rfl, replaceAll_cons,
        if_neg]
      · rw [ih y (fun i hi => by
          have := hno (i + 1) (by simpa using Nat.succ_lt_succ hi)
          simpa using this)]
        simp
      · intro hc
        have h0 := hno 0 (by simp)
        simp only [List.drop_zero] at h0
        rw [show (a :: x') ++ (pat ++ y) = a :: (x' ++ (pat ++ y)) from rfl] at h0
        rw [h0] at hc
        exact Bool.false_ne_true hc.1

/-- The separator-joined string: `joinSep sep [x₀, …, xₙ] =
x₀ ++ sep ++ … ++ sep ++ xₙ`. -/
def joinSep (sep : Str) : List Str → Str
  | [] => []
  | [x] => x
  | x :: y :: ys => x ++ sep ++ joinSep sep (y :: ys)

/-- The per-pass safety condition on a chunk decomposition: no occurrence
of `pat` begins inside a chunk (inner chunks checked against the full
following text; the final chunk must be occurrence-free). -/
def stepOkChunks (pat : Str) : List Str → Bool
  | [] => true
  | [x] => !occursIn pat x
  | x :: y :: ys =>
      decide (∀ i, i < x.length →
        pat.isPrefixOf ((x ++ (pat ++ joinSep pat (y :: ys))).drop i) = false)
      && stepOkChunks pat (y :: ys)

/-- The central replacement lemma: under `stepOkChunks`, replacing `pat`
by `repl` in the `pat`-joined chunks yields the `repl`-joined chunks —
`str.replace` rewrites exactly the separators. -/
theorem replaceAll_joinSep (pat repl : Str) (hne : pat ≠ []) :
    ∀ chunks, stepOkChunks pat chunks = true →
      replaceAll pat repl (joinSep pat chunks) = joinSep repl chunks
  | [], _ => rfl
  | [x], h => by
      simp only [stepOkChunks, Bool.not_eq_true'] at h
      exact replaceAll_of_not_occurs pat repl x h
  | x :: y :: ys, h => by
      simp only [stepOkChunks, Bool.and_eq_true, decide_eq_true_eq] at h
      have hx := h.1
      have hrest := replaceAll_joinSep pat repl hne (y :: ys) h.2
      show replaceAll pat repl (x ++ pat ++ joinSep pat (y :: ys)) = _
      rw [List.append_assoc]
      rw [replaceAll_skip_then_hit pat repl hne x (joinSep pat (y :: ys)) hx]
      rw [hrest]
      show x ++ repl ++ joinSep repl (y :: ys) = joinSep repl (x :: y :: ys)
      rfl

/-! ### Shared machinery: the scan structure of `re.findall`

Both filters compute `re.findall(pattern, content)` once and then loop
over the matches. For the two concrete patterns the regex scan is
deterministic: at each position either a (unique) match starts, or the
scan advances one character. `Seg` records that decomposition: raw
characters interleaved with matched tokens. -/

/-- A segment of the scanned content: an unmatched character, or one
match (a token `μ` — the regex groups of the match). -/
inductive Seg (μ : Type) where
  | raw (c : Char)
  | tok (m : μ)
deriving DecidableEq

/-- The content a segment list denotes, a token reading as its matched
literal. -/
def flattenSegs {μ : Type} (litOf : μ → Str) : List (Seg μ) → Str
  | [] => []
  | .raw c :: t => c :: flattenSegs litOf t
  | .tok m :: t => litOf m ++ flattenSegs litOf t

/-- The match list of the scan (what `re.findall` returns). -/
def matchesOf {μ : Type} : List (Seg μ) → List μ
  | [] => []
  | .raw _ :: t => matchesOf t
  | .tok m :: t => m :: matchesOf t

/-- The segment list with every token rendered by `f` — the claim's
span-by-span rewrite (each matched span replaced in place, all other
characters unchanged). -/
def renderSegs {μ : Type} (f : μ → Str) : List (Seg μ) → Str
  | [] => []
  | .raw c :: t => c :: renderSegs f t
  | .tok m :: t => f m ++ renderSegs f t

/-- Textually replace every copy of the token `m₀` by the raw characters
of `r` (the state of the content after one `str.replace` pass, kept in
segment form). -/
def replaceTok {μ : Type} [DecidableEq μ] (m₀ : μ) (r : Str) : List (Seg μ) → List (Seg μ)
  | [] => []
  | .raw c :: t => .raw c :: replaceTok m₀ r t
  | .tok m :: t =>
      (if m = m₀ then r.map Seg.raw else [Seg.tok m]) ++ replaceTok m₀ r t

/-- Prepend text to the first chunk of a chunk list. -/
def prependChunk (p : Str) : List Str → List Str
  | [] => [p]
  | x :: xs => (p ++ x) :: xs

/-- The chunk decomposition of a segment list around the token `m₀`:
the texts between (and around) the copies of `m₀`. -/
def chunksFor {μ : Type} [DecidableEq μ] (litOf : μ → Str) (m₀ : μ) :
    List (Seg μ) → List Str
  | [] => [[]]
  | .raw c :: t => prependChunk [c] (chunksFor litOf m₀ t)
  | .tok m :: t =>
      if m = m₀ then [] :: chunksFor litOf m₀ t
      else prependChunk (litOf m) (chunksFor litOf m₀ t)

theorem chunksFor_ne_nil {μ : Type} [DecidableEq μ] (litOf : μ → Str) (m₀ : μ) :
    ∀ segs, chunksFor litOf m₀ segs ≠ [] := by
  intro segs
  induction segs with
  | nil => simp [chunksFor]
  | cons sg t ih =>
      cases sg with
      | raw c =>
          simp only [chunksFor]
          cases chunksFor litOf m₀ t <;> simp [prependChunk]
      | tok m =>
          simp only [chunksFor]
          by_cases hm : m = m₀
          · simp [hm]
          · rw [if_neg hm]
            cases chunksFor litOf m₀ t <;> simp [prependChunk]

theorem joinSep_prependChunk (sep p : Str) (ch : List Str) :
    joinSep sep (prependChunk p ch) = p ++ joinSep sep ch := by
  cases ch with
  | nil => simp [prependChunk, joinSep]
  | cons x xs =>
      cases xs with
      | nil => simp [prependChunk, joinSep]
      | cons y ys => simp [prependChunk, joinSep]

/-- The `m₀`-joined chunks read back the original content. -/
theorem joinSep_chunksFor {μ : Type} [DecidableEq μ] (litOf : μ → Str) (m₀ : μ) :
    ∀ segs, joinSep (litOf m₀) (chunksFor litOf m₀ segs) = flattenSegs litOf segs := by
  intro segs
  induction segs with
  | nil => rfl
  | cons sg t ih =>
      cases sg with
      | raw c =>
          simp only [chunksFor, flattenSegs, joinSep_prependChunk, ih]
          rfl
      | tok m =>
          by_cases hm : m = m₀
          · subst hm
            simp only [chunksFor, if_pos rfl, flattenSegs]
            have hne := chunksFor_ne_nil litOf m t
            cases hch : chunksFor litOf m t with
            | nil => exact absurd hch hne
            | cons x xs =>
                simp only [joinSep, List.nil_append]
                rw [hch] at ih
                rw [ih]
          · simp only [chunksFor, if_neg hm, flattenSegs, joinSep_prependChunk, ih]

/-- The `r`-joined chunks read back the content after the textual
replacement of `m₀` by `r`. -/
theorem joinSep_chunksFor_replace {μ : Type} [DecidableEq μ] (litOf : μ → Str) (m₀ : μ)
    (r : Str) : ∀ segs,
    joinSep r (chunksFor litOf m₀ segs) = flattenSegs litOf (replaceTok m₀ r segs) := by
  intro segs
  have hmapraw : ∀ (x : Str) (t : List (Seg μ)),
      flattenSegs litOf (x.map Seg.raw ++ t) = x ++ flattenSegs litOf t := by
    intro x
    induction x with
    | nil => intro t; rfl
    | cons a b ihx =>
        intro t
        exact congrArg (fun z => a :: z) (ihx t)
  induction segs with
  | nil => rfl
  | cons sg t ih =>
      cases sg with
      | raw c =>
          simp only [chunksFor, replaceTok, flattenSegs, joinSep_prependChunk, ih]
          rfl
      | tok m =>
          by_cases hm : m = m₀
          · subst hm
            simp only [chunksFor, replaceTok, if_pos rfl, eq_self_iff_true, if_true]
            have hne := chunksFor_ne_nil litOf m t
            cases hch : chunksFor litOf m t with
            | nil => exact absurd hch hne
            | cons x xs =>
                simp only [joinSep, List.nil_append]
                rw [hch] at ih
                rw [hmapraw, ih]
          · simp only [chunksFor, if_neg hm, replaceTok, if_neg hm,
              joinSep_prependChunk, ih]
            rfl

/-- The segment-level state after processing a prefix of the match list
(each processed match textually replaced everywhere). -/
def applyMatches {μ : Type} [DecidableEq μ] (replFn : μ → Str) :
    List μ → List (Seg μ) → List (Seg μ)
  | [], segs => segs
  | m :: ms, segs => applyMatches replFn ms (replaceTok m (replFn m) segs)

/-- The no-interference condition for the whole filter run: before each
match's replacement pass, the match's literal occurs in the current
content only as the remaining copies of that match. -/
def foldOk {μ : Type} [DecidableEq μ] (litOf replFn : μ → Str) :
    List μ → List (Seg μ) → Bool
  | [], _ => true
  | m :: ms, segs =>
      stepOkChunks (litOf m) (chunksFor litOf m segs)
      && foldOk litOf replFn ms (replaceTok m (replFn m) segs)

/-- Under `foldOk`, the source's fold of `str.replace` passes over the
match list computes exactly the segment-level replacement. -/
theorem foldl_replaceAll_eq_applyMatches {μ : Type} [DecidableEq μ]
    (litOf replFn : μ → Str) (hlit : ∀ m : μ, litOf m ≠ []) :
    ∀ (ms : List μ) (segs : List (Seg μ)), foldOk litOf replFn ms segs = true →
      ms.foldl (fun acc m => replaceAll (litOf m) (replFn m) acc) (flattenSegs litOf segs)
        = flattenSegs litOf (applyMatches replFn ms segs) := by
  intro ms
  induction ms with
  | nil => intro segs _; rfl
  | cons m ms ih =>
      intro segs h
      simp only [foldOk, Bool.and_eq_true] at h
      have hstep : replaceAll (litOf m) (replFn m) (flattenSegs litOf segs)
          = flattenSegs litOf (replaceTok m (replFn m) segs) := by
        rw [← joinSep_chunksFor litOf m segs]
        rw [replaceAll_joinSep (litOf m) (replFn m) (hlit m) _ h.1]
        exact joinSep_chunksFor_replace litOf m (replFn m) segs
      show List.foldl _ (replaceAll (litOf m) (replFn m) (flattenSegs litOf segs)) ms = _
      rw [hstep]
      exact ih _ h.2

theorem tok_mem_replaceTok {μ : Type} [DecidableEq μ] (m₀ : μ) (r : Str) :
    ∀ (segs : List (Seg μ)) (m : μ), Seg.tok m ∈ replaceTok m₀ r segs →
      Seg.tok m ∈ segs ∧ m ≠ m₀ := by
  intro segs
  induction segs with
  | nil => intro m h; simp [replaceTok] at h
  | cons sg t ih =>
      intro m h
      cases sg with
      | raw c =>
          simp only [replaceTok, List.mem_cons] at h
          rcases h with h | h
          · exact absurd h (by simp)
          · have := ih m h
            exact ⟨List.mem_cons_of_mem _ this.1, this.2⟩
      | tok m' =>
          simp only [replaceTok, List.mem_append] at h
          rcases h with h | h
          · by_cases hm' : m' = m₀
            · rw [if_pos hm'] at h
              simp [List.mem_map] at h
            · rw [if_neg hm'] at h
              simp at h
              subst h
              exact ⟨List.mem_cons_self _ _, hm'⟩
          · have := ih m h
            exact ⟨List.mem_cons_of_mem _ this.1, this.2⟩

/-- A token-free segment list renders as it flattens. -/
theorem renderSegs_eq_flattenSegs_of_no_tok {μ : Type} (litOf f : μ → Str) :
    ∀ segs : List (Seg μ), (∀ m : μ, Seg.tok m ∉ segs) →
      renderSegs f segs = flattenSegs litOf segs := by
  intro segs
  induction segs with
  | nil => intro _; rfl
  | cons sg t ih =>
      intro h
      cases sg with
      | raw c =>
          simp only [renderSegs, flattenSegs]
          rw [ih (fun m hm => h m (List.mem_cons_of_mem _ hm))]
      | tok m => exact absurd (List.mem_cons_self _ _) (h m)

theorem renderSegs_replaceTok {μ : Type} [DecidableEq μ] (f : μ → Str) (m₀ : μ) :
    ∀ segs : List (Seg μ),
      renderSegs f (replaceTok m₀ (f m₀) segs) = renderSegs f segs := by
  intro segs
  have hmapraw : ∀ (x : Str) (t : List (Seg μ)),
      renderSegs f (x.map Seg.raw ++ t) = x ++ renderSegs f t := by
    intro x
    induction x with
    | nil => intro t; rfl
    | cons a b ihx =>
        intro t
        exact congrArg (fun z => a :: z) (ihx t)
  induction segs with
  | nil => rfl
  | cons sg t ih =>
      cases sg with
      | raw c =>
          simp only [replaceTok, renderSegs]
          rw [ih]
      | tok m =>
          by_cases hm : m = m₀
          · subst hm
            simp only [replaceTok, eq_self_iff_true, if_true]
            rw [hmapraw]
            simp only [renderSegs]
            rw [ih]
          · simp only [replaceTok, if_neg hm, List.cons_append, List.nil_append, renderSegs]
            rw [ih]

/-- Once every token of the segment list has been processed, the content
equals the span-by-span rewrite. -/
theorem flatten_applyMatches_eq_render {μ : Type} [DecidableEq μ]
    (litOf replFn : μ → Str) :
    ∀ (ms : List μ) (segs : List (Seg μ)),
      (∀ m : μ, Seg.tok m ∈ segs → m ∈ ms) →
      flattenSegs litOf (applyMatches replFn ms segs) = renderSegs replFn segs := by
  intro ms
  induction ms with
  | nil =>
      intro segs h
      show flattenSegs litOf segs = renderSegs replFn segs
      exact (renderSegs_eq_flattenSegs_of_no_tok litOf replFn segs
        (fun m hm => absurd (h m hm) (List.not_mem_nil m))).symm
  | cons m ms ih =>
      intro segs h
      show flattenSegs litOf (applyMatches replFn ms (replaceTok m (replFn m) segs)) = _
      rw [ih (replaceTok m (replFn m) segs) (fun m' hm' => by
        obtain ⟨hmem, hne⟩ := tok_mem_replaceTok m (replFn m) segs m' hm'
        rcases List.mem_cons.mp (h m' hmem) with h1 | h1
        · exact absurd h1 hne
        · exact h1)]
      exact renderSegs_replaceTok replFn m segs

/-- Every token of the scan is among its matches. -/
theorem mem_matchesOf_of_tok_mem {μ : Type} :
    ∀ (segs : List (Seg μ)) (m : μ), Seg.tok m ∈ segs → m ∈ matchesOf segs := by
  intro segs
  induction segs with
  | nil => intro m h; simp at h
  | cons sg t ih =>
      intro m h
      cases sg with
      | raw c =>
          simp only [List.mem_cons] at h
          rcases h with h | h
          · exact absurd h (by simp)
          · exact ih m h
      | tok m' =>
          simp only [List.mem_cons] at h
          rcases h with h | h
          · simp only [Seg.tok.injEq] at h
            subst h
            exact List.mem_cons_self _ _
          · exact List.mem_cons_of_mem _ (ih m h)

/-- The master filter lemma: when `foldOk` holds for the scan of the
content, the source's `re.findall` + `str.replace` fold equals the
span-by-span rewrite `renderSegs`. -/
theorem foldl_replaceAll_eq_render {μ : Type} [DecidableEq μ]
    (litOf replFn : μ → Str) (hlit : ∀ m : μ, litOf m ≠ [])
    (segs : List (Seg μ))
    (h : foldOk litOf replFn (matchesOf segs) segs = true) :
    (matchesOf segs).foldl (fun acc m => replaceAll (litOf m) (replFn m) acc)
      (flattenSegs litOf segs) = renderSegs replFn segs := by
  rw [foldl_replaceAll_eq_applyMatches litOf replFn hlit _ _ h]
  exact flatten_applyMatches_eq_render litOf replFn _ _
    (fun m hm => mem_matchesOf_of_tok_mem segs m hm)

/-! ### C2 (images): `ImageHandler.process_images` (image_handler.py lines 19-38)

`re.findall(r'!\[([^\]]*)\]\(([^)]+)\)', content)` followed by, per
match `(alt, path)`, an attempted embed (`_add_image_to_doc`, whose
success is an oracle `ok alt path` over the filesystem/network) and
`content.replace('![alt](path)', placeholder)`. For this pattern the
regex scan is deterministic: alt runs to the first `]` (possibly
empty), path to the first `)` (nonempty). -/

/-- The matched literal `![alt](path)` of an image match. -/
def imageLit (m : Str × Str) : Str :=
  '!' :: '[' :: (m.1 ++ ']' :: '(' :: (m.2 ++ [')']))

/-- The text substituted for an image match: `[Image: alt]` when the
embed succeeded, `[Image Error: alt]` when it raised. -/
def imageRepl (ok : Str → Str → Bool) (m : Str × Str) : Str :=
  if ok m.1 m.2 then "[Image: ".data ++ m.1 ++ [']']
  else "[Image Error: ".data ++ m.1 ++ [']']

/-- One attempt of the image regex at the current position: `![`, then
`[^\]]*` (to the first `]`), then `](`, then `[^)]+` (nonempty, to the
first `)`), then `)`. Returns the match's groups and the rest of the
string past the match. -/
def tryImage : Str → Option ((Str × Str) × Str)
  | '!' :: '[' :: t =>
      let a := t.takeWhile (fun c => c ≠ ']')
      match t.dropWhile (fun c => c ≠ ']') with
      | ']' :: '(' :: t2 =>
          let p := t2.takeWhile (fun c => c ≠ ')')
          if p.isEmpty then none
          else
            match t2.dropWhile (fun c => c ≠ ')') with
            | ')' :: rest => some ((a, p), rest)
            | _ => none
      | _ => none
  | _ => none

theorem tryImage_spec :
    ∀ s a p rest, tryImage s = some ((a, p), rest) → s = imageLit (a, p) ++ rest := by
  intro s a p rest h
  unfold tryImage at h
  split at h
  next c1 t =>
    dsimp only at h
    split at h
    next heq =>
      rename_i d2 t2
      split at h
      · exact absurd h (by simp)
      next hp =>
        split at h
        next heq2 =>
          rename_i rest2
          simp only [Option.some.injEq, Prod.mk.injEq] at h
          obtain ⟨⟨ha, hp2⟩, hrest⟩ := h
          subst ha; subst hp2; subst hrest
          have hP : t2.takeWhile (fun c => c ≠ ')') ++ ')' :: rest2 = t2 := by
            conv_rhs => rw [← List.takeWhile_append_dropWhile
              (p := fun c => c ≠ ')') (l := t2)]
            rw [heq2]
          have hA : t.takeWhile (fun c => c ≠ ']') ++ ']' :: '(' :: t2 = t := by
            conv_rhs => rw [← List.takeWhile_append_dropWhile
              (p := fun c => c ≠ ']') (l := t)]
            rw [heq]
          have hshape : imageLit (t.takeWhile (fun c => c ≠ ']'),
              t2.takeWhile (fun c => c ≠ ')')) ++ rest2 =
              '!' :: '[' :: (t.takeWhile (fun c => c ≠ ']') ++
                ']' :: '(' :: (t2.takeWhile (fun c => c ≠ ')') ++ ')' :: rest2)) := by
            simp [imageLit]
          rw [hshape, hP, hA]
        · exact absurd h (by simp)
    · exact absurd h (by simp)
  next =>
    exact absurd h (by simp)

/-- The deterministic scan of the image regex over the content (fuel =
length; at a match the scan continues after it, otherwise one character
is skipped, exactly as `re.findall` does). -/
def parseImagesGo : Nat → Str → List (Seg (Str × Str))
  | 0, s => s.map Seg.raw
  | _ + 1, [] => []
  | fuel + 1, c :: t =>
      match tryImage (c :: t) with
      | some (m, rest) => Seg.tok m :: parseImagesGo fuel rest
      | none => Seg.raw c :: parseImagesGo fuel t

def parseImages (s : Str) : List (Seg (Str × Str)) := parseImagesGo s.length s

/-- `re.findall` of the image pattern: the matches of the scan in
order. -/
def findImageMatches (content : Str) : List (Str × Str) :=
  matchesOf (parseImages content)

/-- `ImageHandler.process_images` (its effect on the returned content;
the embedding side effects live in the oracle): the fold of
`str.replace` passes over the matches, in match order. -/
def process_images (ok : Str → Str → Bool) (content : Str) : Str :=
  (findImageMatches content).foldl
    (fun acc m => replaceAll (imageLit m) (imageRepl ok m) acc) content

/-- The claim's description of the filter: every matched image reference
replaced in place by its placeholder, all other characters unchanged. -/
def imageSpanRewrite (ok : Str → Str → Bool) (content : Str) : Str :=
  renderSegs (imageRepl ok) (parseImages content)

theorem flattenSegs_map_raw {μ : Type} (litOf : μ → Str) :
    ∀ s : Str, flattenSegs litOf (s.map Seg.raw) = s := by
  intro s
  induction s with
  | nil => rfl
  | cons c t ih => simp only [List.map_cons, flattenSegs, ih]

/-- The scan conserves the content. -/
theorem flatten_parseImagesGo :
    ∀ fuel s, flattenSegs imageLit (parseImagesGo fuel s) = s := by
  intro fuel
  induction fuel with
  | zero => intro s; exact flattenSegs_map_raw imageLit s
  | succ fuel ih =>
      intro s
      cases s with
      | nil => rfl
      | cons c t =>
          simp only [parseImagesGo]
          cases htry : tryImage (c :: t) with
          | none => simp only [flattenSegs, ih]
          | some mr =>
              obtain ⟨⟨a, p⟩, rest⟩ := mr
              simp only [flattenSegs, ih]
              exact (tryImage_spec (c :: t) a p rest htry).symm

theorem flatten_parseImages (s : Str) : flattenSegs imageLit (parseImages s) = s :=
  flatten_parseImagesGo s.length s

/-- The no-interference condition of claim C2's amendment for images:
along the pass-by-pass run, each matched literal occurs only as the
remaining copies of its own match (decidable; it rules out one match's
text nested in another and placeholders recreating a later literal). -/
def imagesOk (ok : Str → Str → Bool) (content : Str) : Bool :=
  foldOk imageLit (imageRepl ok) (findImageMatches content) (parseImages content)

/-- The image-filter span lemma (used by C2 and C3): under `imagesOk`,
`process_images` is the span-by-span rewrite. -/
theorem process_images_eq_spanRewrite (ok : Str → Str → Bool) (content : Str)
    (h : imagesOk ok content = true) :
    process_images ok content = imageSpanRewrite ok content := by
  unfold process_images imageSpanRewrite findImageMatches
  have hmain := foldl_replaceAll_eq_render imageLit (imageRepl ok)
    (fun m => by simp [imageLit]) (parseImages content) h
  rw [flatten_parseImages content] at hmain
  exact hmain

/-! ### C2 (mermaid): `MermaidHandler.process_mermaid` (mermaid_handler.py lines 19-53)

`re.findall(r'```mermaid\n(.*?)\n```', content, re.DOTALL)` followed by
one `str.replace` per match: `[Mermaid Diagram - CLI not available]`
when `mmdc` is missing, otherwise `[Mermaid Diagram]` (no exception; a
failed render silently skips the picture) or
`[Mermaid Diagram - Render Error]` (exception). The non-greedy `(.*?)`
closes at the first `\n```` ``` following. -/

/-- Index of the first occurrence of `pat` (the non-greedy search). -/
def subIdx (pat : Str) : Str → Option Nat
  | [] => if pat.isEmpty then some 0 else none
  | c :: t =>
      if pat.isPrefixOf (c :: t) then some 0
      else (subIdx pat t).map (fun n => n + 1)

theorem subIdx_spec (pat : Str) :
    ∀ t j, subIdx pat t = some j → t.take j ++ pat ++ t.drop (j + pat.length) = t := by
  intro t
  induction t with
  | nil =>
      intro j h
      simp only [subIdx] at h
      split at h
      · next hp =>
          simp only [Option.some.injEq] at h
          subst h
          simp only [List.take_nil, List.drop_nil, List.nil_append, List.append_nil]
          exact List.isEmpty_iff.mp hp
      · exact absurd h (by simp)
  | cons c t ih =>
      intro j h
      simp only [subIdx] at h
      split at h
      · next hp =>
          simp only [Option.some.injEq] at h
          subst h
          obtain ⟨u, hu⟩ := List.isPrefixOf_iff_prefix.mp hp
          simp only [List.take_zero, List.nil_append, Nat.zero_add]
          rw [← hu, List.drop_left]
      · simp only [Option.map_eq_some'] at h
        obtain ⟨j', hj', rfl⟩ := h
        have := ih j' hj'
        show c :: t.take j' ++ pat ++ (c :: t).drop (j' + 1 + pat.length) = c :: t
        have hdrop : (c :: t).drop (j' + 1 + pat.length) = t.drop (j' + pat.length) := by
          have : j' + 1 + pat.length = (j' + pat.length) + 1 := by omega
          rw [this]
          rfl
        rw [hdrop]
        simp only [List.cons_append]
        rw [List.append_assoc] at this ⊢
        rw [this]

/-- The opening literal of a fenced mermaid block. -/
def mermaidOpenLit : Str := "```mermaid\n".data

/-- The closing literal. -/
def mermaidCloseLit : Str := "\n```".data

/-- `f'```mermaid\n{mermaid_code}\n```'` — the matched block rebuilt in
the loop body. -/
def mermaidLit (code : Str) : Str := mermaidOpenLit ++ code ++ mermaidCloseLit

/-- One attempt of the mermaid regex at the current position: the
opening literal, then the shortest text up to a closing literal. -/
def tryMermaid (s : Str) : Option (Str × Str) :=
  if mermaidOpenLit.isPrefixOf s then
    let t := s.drop mermaidOpenLit.length
    match subIdx mermaidCloseLit t with
    | some j => some (t.take j, t.drop (j + mermaidCloseLit.length))
    | none => none
  else none

theorem tryMermaid_spec :
    ∀ s code rest, tryMermaid s = some (code, rest) → s = mermaidLit code ++ rest := by
  intro s code rest h
  unfold tryMermaid at h
  split at h
  · next hp =>
      dsimp only at h
      split at h
      · next j hj =>
          simp only [Option.some.injEq, Prod.mk.injEq] at h
          obtain ⟨hc, hr⟩ := h
          subst hc; subst hr
          obtain ⟨u, hu⟩ := List.isPrefixOf_iff_prefix.mp hp
          have hdropu : s.drop mermaidOpenLit.length = u := by
            rw [← hu, List.drop_left]
          have hsub := subIdx_spec mermaidCloseLit (s.drop mermaidOpenLit.length) j hj
          unfold mermaidLit
          calc s = mermaidOpenLit ++ u := hu.symm
            _ = mermaidOpenLit ++ (s.drop mermaidOpenLit.length) := by rw [hdropu]
            _ = mermaidOpenLit ++ ((s.drop mermaidOpenLit.length).take j ++ mermaidCloseLit
                  ++ (s.drop mermaidOpenLit.length).drop (j + mermaidCloseLit.length)) := by
                rw [hsub]
            _ = mermaidOpenLit ++ (s.drop mermaidOpenLit.length).take j ++ mermaidCloseLit
                  ++ (s.drop mermaidOpenLit.length).drop (j + mermaidCloseLit.length) := by
                simp [List.append_assoc]
      · exact absurd h (by simp)
  · exact absurd h (by simp)

/-- The deterministic scan of the mermaid regex over the content. -/
def parseMermaidGo : Nat → Str → List (Seg Str)
  | 0, s => s.map Seg.raw
  | _ + 1, [] => []
  | fuel + 1, c :: t =>
      match tryMermaid (c :: t) with
      | some (code, rest) => Seg.tok code :: parseMermaidGo fuel rest
      | none => Seg.raw c :: parseMermaidGo fuel t

def parseMermaid (s : Str) : List (Seg Str) := parseMermaidGo s.length s

/-- `re.findall` of the mermaid pattern (group 1 of each match). -/
def findMermaidMatches (content : Str) : List Str :=
  matchesOf (parseMermaid content)

/-- The text substituted for a mermaid block, by branch. -/
def mermaidRepl (available : Bool) (outcome : Str → Bool) (code : Str) : Str :=
  if available = false then "[Mermaid Diagram - CLI not available]".data
  else if outcome code then "[Mermaid Diagram]".data
  else "[Mermaid Diagram - Render Error]".data

/-- `MermaidHandler.process_mermaid` (its effect on the returned
content): the early return on no matches, then one `str.replace` pass
per match. -/
def process_mermaid (available : Bool) (outcome : Str → Bool) (content : Str) : Str :=
  let ms := findMermaidMatches content
  if ms.isEmpty then content
  else ms.foldl
    (fun acc code => replaceAll (mermaidLit code) (mermaidRepl available outcome code) acc)
    content

/-- The claim's description: every matched mermaid block replaced in
place, all other characters unchanged. -/
def mermaidSpanRewrite (available : Bool) (outcome : Str → Bool) (content : Str) : Str :=
  renderSegs (mermaidRepl available outcome) (parseMermaid content)

theorem flatten_parseMermaidGo :
    ∀ fuel s, flattenSegs mermaidLit (parseMermaidGo fuel s) = s := by
  intro fuel
  induction fuel with
  | zero => intro s; exact flattenSegs_map_raw mermaidLit s
  | succ fuel ih =>
      intro s
      cases s with
      | nil => rfl
      | cons c t =>
          simp only [parseMermaidGo]
          cases htry : tryMermaid (c :: t) with
          | none => simp only [flattenSegs, ih]
          | some mr =>
              obtain ⟨code, rest⟩ := mr
              simp only [flattenSegs, ih]
              exact (tryMermaid_spec (c :: t) code rest htry).symm

theorem flatten_parseMermaid (s : Str) : flattenSegs mermaidLit (parseMermaid s) = s :=
  flatten_parseMermaidGo s.length s

/-- The no-interference condition for the mermaid pass. -/
def mermaidOk (available : Bool) (outcome : Str → Bool) (content : Str) : Bool :=
  foldOk mermaidLit (mermaidRepl available outcome) (findMermaidMatches content)
    (parseMermaid content)

/-- The mermaid-filter span lemma: under `mermaidOk`, `process_mermaid`
is the span-by-span rewrite. -/
theorem process_mermaid_eq_spanRewrite (available : Bool) (outcome : Str → Bool)
    (content : Str) (h : mermaidOk available outcome content = true) :
    process_mermaid available outcome content
      = mermaidSpanRewrite available outcome content := by
  unfold process_mermaid mermaidSpanRewrite
  by_cases hms : (findMermaidMatches content).isEmpty
  · simp only [hms, if_true]
    have hnotok : ∀ m : Str, Seg.tok m ∉ parseMermaid content := by
      intro m hm
      have := mem_matchesOf_of_tok_mem (parseMermaid content) m hm
      rw [show matchesOf (parseMermaid content) = findMermaidMatches content from rfl] at this
      rw [List.isEmpty_iff.mp hms] at this
      exact List.not_mem_nil m this
    rw [renderSegs_eq_flattenSegs_of_no_tok mermaidLit _ _ hnotok]
    exact (flatten_parseMermaid content).symm
  · simp only [hms, if_false]
    have hlit : ∀ code : Str, mermaidLit code ≠ [] := by
      intro code
      simp [mermaidLit, mermaidOpenLit]
    have hmain := foldl_replaceAll_eq_render mermaidLit (mermaidRepl available outcome)
      hlit (parseMermaid content) h
    rw [flatten_parseMermaid content] at hmain
    exact hmain

/-- Claim C2 as stated: for **every** input the filters replace each
matched image reference by its placeholder (`[Image: alt]` on a
successful embed, `[Image Error: alt]` on an exception) and — with the
CLI unavailable — each matched mermaid block by
`[Mermaid Diagram - CLI not available]`, every character outside the
replaced spans unchanged (the span-by-span rewrite `renderSegs`). -/
def C2AsStated : Prop :=
  (∀ (ok : Str → Str → Bool) (content : Str),
    process_images ok content = imageSpanRewrite ok content) ∧
  (∀ (outcome : Str → Bool) (content : Str),
    process_mermaid false outcome content = mermaidSpanRewrite false outcome content)

/-- C2 fails as stated: on `![a](p) ![z![a](p)` (the first reference's
text nested inside the second match), the code's sequential
`str.replace` passes yield `[Image: a] ![z[Image: a]`, not the
span-by-span `[Image: a] [Image: z![a]` — the second matched reference
is never replaced by its placeholder and characters inside its span are
rewritten. -/
theorem c2_filters_counterexample : ¬ C2AsStated := by
  intro h
  have hx := h.1 (fun _ _ => true) ("![a](p) ![z![a](p)".data)
  exact absurd hx (by decide)

/-- C2 amended: the replacement holds span by span **provided** the
passes do not interfere (`imagesOk` / `mermaidOk`: along the run, each
matched literal occurs in the current content only as the remaining
copies of its own match — ruling out one reference's text nested inside
another match and replacements recreating a later reference's text).
Then each image reference becomes `[Image: alt]` or `[Image Error:
alt]`, each mermaid block becomes `[Mermaid Diagram - CLI not
available]` when the CLI is unavailable, and every character outside
the replaced spans is returned unchanged. -/
theorem c2_filters_amended (ok : Str → Str → Bool) (outcome : Str → Bool)
    (imgContent mermContent : Str)
    (h1 : imagesOk ok imgContent = true)
    (h2 : mermaidOk false outcome mermContent = true) :
    process_images ok imgContent = imageSpanRewrite ok imgContent ∧
    process_mermaid false outcome mermContent
      = mermaidSpanRewrite false outcome mermContent :=
  ⟨process_images_eq_spanRewrite ok imgContent h1,
   process_mermaid_eq_spanRewrite false outcome mermContent h2⟩

theorem c2_filters_amended_witness :
    process_images (fun _ _ => true) ("intro ![logo](img.png) outro".data)
      = imageSpanRewrite (fun _ _ => true) ("intro ![logo](img.png) outro".data) ∧
    process_mermaid false (fun _ => true) ("before\n```mermaid\nA-->B\n```\nafter".data)
      = mermaidSpanRewrite false (fun _ => true)
          ("before\n```mermaid\nA-->B\n```\nafter".data) :=
  c2_filters_amended (fun _ _ => true) (fun _ => true)
    ("intro ![logo](img.png) outro".data)
    ("before\n```mermaid\nA-->B\n```\nafter".data)
    (by decide) (by decide)

/-! ### C3: filter ordering in `convert` (converter.py lines 23-44,
simple_improved_converter.py lines 42-71)

Both converters run, in order:
`processed = process_images(doc, content)`;
`processed = process_mermaid(doc, processed)`; and hand exactly that
`processed` to the main pass (`_convert_content` / `self.md.convert`).
The simple improved converter first applies `_preprocess_markdown`.
The traces below record the successive values of `processed_content`. -/

/-- The successive values of `processed_content` in `convert`, and the
string the main conversion pass receives. -/
structure ConvertTextTrace where
  afterImages : Str
  afterMermaid : Str
  mainPassInput : Str
deriving Repr, DecidableEq

/-- The textual pipeline of `MarkdownConverter.convert` (converter.py
lines 39-43). -/
def converterConvertTrace (ok : Str → Str → Bool) (available : Bool)
    (outcome : Str → Bool) (markdown_content : Str) : ConvertTextTrace :=
  let processed1 := process_images ok markdown_content
  let processed2 := process_mermaid available outcome processed1
  { afterImages := processed1, afterMermaid := processed2, mainPassInput := processed2 }

/-- The textual pipeline of `SimpleImprovedConverter.convert`
(simple_improved_converter.py lines 58-66): pre-processing, then
images, then mermaid, then `self.md.convert` on the result. -/
def simpleConvertTrace (ok : Str → Str → Bool) (available : Bool)
    (outcome : Str → Bool) (markdown_content : Str) : ConvertTextTrace :=
  let pre := preprocess_markdown markdown_content
  let processed1 := process_images ok pre
  let processed2 := process_mermaid available outcome processed1
  { afterImages := processed1, afterMermaid := processed2, mainPassInput := processed2 }

/-- Claim C3 as stated: the main pass receives exactly the
twice-filtered text, **and** never sees an image reference or mermaid
block the filters handled (no handled literal occurs in the main-pass
input). -/
def C3AsStated : Prop :=
  (∀ (ok : Str → Str → Bool) (available : Bool) (outcome : Str → Bool) (content : Str),
    (converterConvertTrace ok available outcome content).mainPassInput
      = process_mermaid available outcome (process_images ok content) ∧
    (simpleConvertTrace ok available outcome content).mainPassInput
      = process_mermaid available outcome
          (process_images ok (preprocess_markdown content))) ∧
  (∀ (ok : Str → Str → Bool) (available : Bool) (outcome : Str → Bool) (content : Str),
    ∀ m ∈ findImageMatches content,
      occursIn (imageLit m)
        ((converterConvertTrace ok available outcome content).mainPassInput) = false)

/-- C3 fails as stated: on `![Image: b](q)z!![b](p)(q)` the second
replacement pass textually recreates the first (already handled)
reference — the main pass input `[Image: Image: b]z![Image: b](q)`
contains the handled literal `![Image: b](q)`. -/
theorem c3_pipeline_counterexample : ¬ C3AsStated := by
  intro h
  have hx := h.2 (fun _ _ => true) false (fun _ => true)
    ("![Image: b](q)z!![b](p)(q)".data)
    ("Image: b".data, "q".data) (by decide)
  exact absurd hx (by decide)

set_option maxHeartbeats 1600000 in
/-- C3 amended: image handling and diagram handling do run before the
main conversion pass, in that order — the main pass receives exactly
`process_mermaid (process_images content)` (after `_preprocess_markdown`
for the simple improved converter) — and, provided the filters'
replacement passes do not interfere (`imagesOk`/`mermaidOk` as in C2),
the main pass sees every handled span replaced by its placeholder
rather than the original reference; without that proviso a later
replacement can textually recreate an earlier handled reference. -/
theorem c3_pipeline_amended (ok : Str → Str → Bool) (available : Bool)
    (outcome : Str → Bool) (content : Str)
    (h1 : imagesOk ok content = true)
    (h2 : mermaidOk available outcome (process_images ok content) = true)
    (h3 : imagesOk ok (preprocess_markdown content) = true)
    (h4 : mermaidOk available outcome
      (process_images ok (preprocess_markdown content)) = true) :
    (converterConvertTrace ok available outcome content).mainPassInput
      = process_mermaid available outcome (process_images ok content) ∧
    (simpleConvertTrace ok available outcome content).mainPassInput
      = process_mermaid available outcome
          (process_images ok (preprocess_markdown content)) ∧
    (converterConvertTrace ok available outcome content).mainPassInput
      = mermaidSpanRewrite available outcome (imageSpanRewrite ok content) ∧
    (simpleConvertTrace ok available outcome content).mainPassInput
      = mermaidSpanRewrite available outcome
          (imageSpanRewrite ok (preprocess_markdown content)) := by
  refine ⟨rfl, rfl, ?_, ?_⟩
  · show process_mermaid available outcome (process_images ok content) = _
    rw [process_mermaid_eq_spanRewrite available outcome _ h2,
      process_images_eq_spanRewrite ok content h1]
  · show process_mermaid available outcome
      (process_images ok (preprocess_markdown content)) = _
    rw [process_mermaid_eq_spanRewrite available outcome _ h4,
      process_images_eq_spanRewrite ok (preprocess_markdown content) h3]

set_option maxHeartbeats 1600000 in
theorem c3_pipeline_amended_witness :
    (converterConvertTrace (fun _ _ => true) false (fun _ => true)
        ("start ![logo](img.png) mid\n```mermaid\nA-->B\n```\nend".data)).mainPassInput
      = mermaidSpanRewrite false (fun _ => true)
          (imageSpanRewrite (fun _ _ => true)
            ("start ![logo](img.png) mid\n```mermaid\nA-->B\n```\nend".data)) :=
  (c3_pipeline_amended (fun _ _ => true) false (fun _ => true)
    ("start ![logo](img.png) mid\n```mermaid\nA-->B\n```\nend".data)
    (by decide) (by decide) (by decide) (by decide)).2.2.1

/-! ### C10: `_process_inline_formatting` (converter.py lines 167-193)

`re.finditer` over
`(\*\*.*?\*\*)|(\*.*?\*)|(~~.*?~~)|(`.+?`)|([^*~`]+)` (no DOTALL: `.`
excludes newlines), dispatching on `startswith`/`endswith` of each
match to emit a run; characters at which no alternative matches are
skipped. The alternation is deterministic: alternatives are tried in
order and each closes at the earliest possible delimiter. -/

/-- The backtick character (`` ` ``). -/
def backquoteChar : Char := Char.ofNat 96

/-- The characters the final alternative `[^*~`]+` excludes. -/
def isInlineDelim (c : Char) : Bool :=
  c = '*' || c = '~' || c = backquoteChar

def twoStar : Str := ['*', '*']

def twoTilde : Str := ['~', '~']

/-- The part of `s` on the current line (`.` does not match `\n`). -/
def sameLine (s : Str) : Str := s.takeWhile (fun c => c ≠ '\n')

/-- One attempt of the inline alternation at the current position,
returning the whole matched text (`match.group(0)`) and the rest.
The `'**'` opener with no closing `'**'` on the line still matches the
second alternative as `'*'` + empty + `'*'` (its closing star is the
second leading star), giving the two-character match `'**'`. -/
def tryStarSingle (t : Str) : Option (Str × Str) :=
  match subIdx ['*'] (sameLine t) with
  | some j => some ('*' :: (t.take j ++ ['*']), t.drop (j + 1))
  | none => none

def tryInline (s : Str) : Option (Str × Str) :=
  match s with
  | [] => none
  | c :: t =>
      if c = '*' then
        match t with
        | [] => tryStarSingle []
        | c2 :: t2 =>
            if c2 = '*' then
              match subIdx twoStar (sameLine t2) with
              | some j => some ('*' :: '*' :: (t2.take j ++ twoStar), t2.drop (j + 2))
              | none => some (twoStar, t2)
            else tryStarSingle (c2 :: t2)
      else if c = '~' then
        match t with
        | [] => none
        | c2 :: t2 =>
            if c2 = '~' then
              match subIdx twoTilde (sameLine t2) with
              | some j => some ('~' :: '~' :: (t2.take j ++ twoTilde), t2.drop (j + 2))
              | none => none
            else none
      else if c = backquoteChar then
        match t with
        | [] => none
        | c1 :: t3 =>
            if c1 = '\n' then none
            else
              match subIdx [backquoteChar] (sameLine t3) with
              | some j =>
                  some (backquoteChar :: c1 :: (t3.take j ++ [backquoteChar]),
                    t3.drop (j + 1))
              | none => none
      else
        some ((c :: t).takeWhile (fun x => !isInlineDelim x),
          (c :: t).dropWhile (fun x => !isInlineDelim x))

/-- A run added to the paragraph: its text and formatting flags
(`courier` = font set to Courier New). -/
structure InlineRun where
  text : Str
  bold : Bool := false
  italic : Bool := false
  strike : Bool := false
  courier : Bool := false
deriving Repr, DecidableEq

/-- Python `content[n:-n]`. -/
def innerSlice (n : Nat) (content : Str) : Str :=
  (content.drop n).take ((content.drop n).length - n)

/-- The `if/elif` dispatch of `_process_inline_formatting` on one
match's text. -/
def dispatchRun (content : Str) : InlineRun :=
  if twoStar.isPrefixOf content ∧ twoStar.isSuffixOf content then
    { text := innerSlice 2 content, bold := true }
  else if ['*'].isPrefixOf content ∧ ['*'].isSuffixOf content then
    { text := innerSlice 1 content, italic := true }
  else if twoTilde.isPrefixOf content ∧ twoTilde.isSuffixOf content then
    { text := innerSlice 2 content, strike := true }
  else if [backquoteChar].isPrefixOf content ∧ [backquoteChar].isSuffixOf content then
    { text := innerSlice 1 content, courier := true }
  else { text := content }

/-- The `re.finditer` loop: emit a run per match, skip unmatched
characters (fuel = length; every step consumes at least one
character). -/
def processInlineGo : Nat → Str → List InlineRun
  | 0, _ => []
  | _ + 1, [] => []
  | fuel + 1, c :: t =>
      match tryInline (c :: t) with
      | some (content, rest) => dispatchRun content :: processInlineGo fuel rest
      | none => processInlineGo fuel t

/-- `MarkdownConverter._process_inline_formatting`: the runs emitted for
a paragraph text. -/
def process_inline_formatting (s : Str) : List InlineRun :=
  processInlineGo s.length s

/-- The concatenated text of the emitted runs. -/
def runsText : List InlineRun → Str
  | [] => []
  | r :: t => r.text ++ runsText t

/-- The claim's description of the output text: scanning left to right
(`'**'` before `'*'` before `'~~'` before `` '`' ``), each complete
delimiter pair is removed and its enclosed text kept, and every
delimiter character that does not form a complete pair is dropped;
ordinary characters are kept unchanged. A pair closes at the first
matching delimiter on the same line; a `'**'` with no closing `'**'`
pairs its own two stars (enclosing nothing). -/
def claimStripGo : Nat → Str → Str
  | 0, _ => []
  | _ + 1, [] => []
  | fuel + 1, c :: t =>
      if c = '*' then
        match t with
        | [] => claimStripGo fuel []
        | c2 :: t2 =>
            if c2 = '*' then
              match subIdx twoStar (sameLine t2) with
              | some j => t2.take j ++ claimStripGo fuel (t2.drop (j + 2))
              | none => claimStripGo fuel t2
            else
              match subIdx ['*'] (sameLine (c2 :: t2)) with
              | some j => (c2 :: t2).take j ++ claimStripGo fuel ((c2 :: t2).drop (j + 1))
              | none => claimStripGo fuel (c2 :: t2)
      else if c = '~' then
        match t with
        | [] => claimStripGo fuel []
        | c2 :: t2 =>
            if c2 = '~' then
              match subIdx twoTilde (sameLine t2) with
              | some j => t2.take j ++ claimStripGo fuel (t2.drop (j + 2))
              | none => claimStripGo fuel (c2 :: t2)
            else claimStripGo fuel (c2 :: t2)
      else if c = backquoteChar then
        match t with
        | [] => claimStripGo fuel []
        | c1 :: t3 =>
            if c1 = '\n' then claimStripGo fuel (c1 :: t3)
            else
              match subIdx [backquoteChar] (sameLine t3) with
              | some j => (c1 :: t3.take j) ++ claimStripGo fuel (t3.drop (j + 1))
              | none => claimStripGo fuel (c1 :: t3)
      else (c :: t).takeWhile (fun x => !isInlineDelim x) ++
        claimStripGo fuel ((c :: t).dropWhile (fun x => !isInlineDelim x))

/-- The claim-side strip of a paragraph text. -/
def claimStrip (s : Str) : Str := claimStripGo s.length s

theorem subIdx_le (pat : Str) :
    ∀ u j, subIdx pat u = some j → j + pat.length ≤ u.length := by
  intro u
  induction u with
  | nil =>
      intro j h
      simp only [subIdx] at h
      split at h
      · next hp =>
          simp only [Option.some.injEq] at h
          subst h
          simp [List.isEmpty_iff.mp hp]
      · exact absurd h (by simp)
  | cons c t ih =>
      intro j h
      simp only [subIdx] at h
      split at h
      · next hp =>
          simp only [Option.some.injEq] at h
          subst h
          have := (List.isPrefixOf_iff_prefix.mp hp).length_le
          simpa using this
      · simp only [Option.map_eq_some'] at h
        obtain ⟨j', hj', rfl⟩ := h
        have := ih j' hj'
        simp only [List.length_cons]
        omega

theorem subIdx_first (pat : Str) :
    ∀ u j, subIdx pat u = some j → ∀ i, i < j → pat.isPrefixOf (u.drop i) = false := by
  intro u
  induction u with
  | nil =>
      intro j h i hi
      simp only [subIdx] at h
      split at h
      · next =>
          simp only [Option.some.injEq] at h
          omega
      · exact absurd h (by simp)
  | cons c t ih =>
      intro j h i hi
      simp only [subIdx] at h
      split at h
      · next =>
          simp only [Option.some.injEq] at h
          omega
      · next hp =>
          simp only [Option.map_eq_some'] at h
          obtain ⟨j', hj', rfl⟩ := h
          cases i with
          | zero =>
              simp only [List.drop_zero]
              cases hb : pat.isPrefixOf (c :: t) with
              | false => rfl
              | true => exact absurd hb hp
          | succ i' =>
              show pat.isPrefixOf (t.drop i') = false
              exact ih j' hj' i' (by omega)

/-- Characters strictly before the first occurrence of a singleton
pattern differ from it. -/
theorem subIdx_singleton_take (a : Char) :
    ∀ u j, subIdx [a] u = some j → ∀ c ∈ u.take j, c ≠ a := by
  intro u
  induction u with
  | nil =>
      intro j h c hc
      simp at hc
  | cons d t ih =>
      intro j h c hc
      simp only [subIdx] at h
      split at h
      · next =>
          simp only [Option.some.injEq] at h
          subst h
          simp at hc
      · next hp =>
          simp only [Option.map_eq_some'] at h
          obtain ⟨j', hj', rfl⟩ := h
          simp only [List.take_succ_cons, List.mem_cons] at hc
          rcases hc with rfl | hc
          · intro hca
            subst hca
            apply hp
            show List.isPrefixOf [c] (c :: t) = true
            simp [List.isPrefixOf]
          · exact ih j' hj' c hc

/-- A take within a prefix of `t` is a take of `t`. -/
theorem take_of_takeWhile_le (P : Char → Bool) (t : Str) (j : Nat)
    (hj : j ≤ (t.takeWhile P).length) : t.take j = (t.takeWhile P).take j := by
  obtain ⟨r, hr⟩ := (List.takeWhile_prefix (l := t) (p := P))
  conv_lhs => rw [← hr]
  rw [List.take_append_eq_append_take]
  have : j - (t.takeWhile P).length = 0 := by omega
  rw [this]
  simp

theorem dispatchRun_bold (x : Str) :
    dispatchRun ('*' :: '*' :: (x ++ twoStar)) = { text := x, bold := true } := by
  unfold dispatchRun
  rw [if_pos]
  · congr 1
    unfold innerSlice
    show (x ++ twoStar).take ((x ++ twoStar).length - 2) = x
    simp [twoStar, List.take_left']
  · constructor
    · simp [twoStar, List.isPrefixOf]
    · exact List.isSuffixOf_iff_suffix.mpr ⟨'*' :: '*' :: x, by simp⟩

theorem dispatchRun_strike (x : Str) :
    dispatchRun ('~' :: '~' :: (x ++ twoTilde)) = { text := x, strike := true } := by
  unfold dispatchRun
  rw [if_neg (by rintro ⟨hp, -⟩; simp [twoStar, List.isPrefixOf] at hp),
    if_neg (by rintro ⟨hp, -⟩; simp [List.isPrefixOf] at hp),
    if_pos]
  · congr 1
    unfold innerSlice
    show (x ++ twoTilde).take ((x ++ twoTilde).length - 2) = x
    simp [twoTilde, List.take_left']
  · constructor
    · simp [twoTilde, List.isPrefixOf]
    · exact List.isSuffixOf_iff_suffix.mpr ⟨'~' :: '~' :: x, by simp⟩

theorem dispatchRun_code (c1 : Char) (x : Str) :
    dispatchRun (backquoteChar :: c1 :: (x ++ [backquoteChar]))
      = { text := c1 :: x, courier := true } := by
  unfold dispatchRun
  rw [if_neg (by rintro ⟨hp, -⟩; simp [twoStar, List.isPrefixOf, backquoteChar] at hp),
    if_neg (by rintro ⟨hp, -⟩; simp [List.isPrefixOf, backquoteChar] at hp),
    if_neg (by rintro ⟨hp, -⟩; simp [twoTilde, List.isPrefixOf, backquoteChar] at hp),
    if_pos]
  · congr 1
    unfold innerSlice
    show (c1 :: (x ++ [backquoteChar])).take ((c1 :: (x ++ [backquoteChar])).length - 1)
      = c1 :: x
    have hl : (c1 :: (x ++ [backquoteChar])).length - 1 = x.length + 1 := by simp
    rw [hl, List.take_succ_cons]
    congr 1
    exact List.take_left' rfl
  · constructor
    · simp [List.isPrefixOf]
    · exact List.isSuffixOf_iff_suffix.mpr ⟨backquoteChar :: c1 :: x, by simp⟩

theorem dispatchRun_star_text (x : Str) (hx : ∀ c ∈ x, c ≠ '*') :
    (dispatchRun ('*' :: (x ++ ['*']))).text = x := by
  cases x with
  | nil =>
      show (dispatchRun ('*' :: '*' :: ([] ++ twoStar))).text = []
      rw [dispatchRun_bold]
  | cons a b =>
      have ha : a ≠ '*' := hx a (List.mem_cons_self _ _)
      unfold dispatchRun
      rw [if_neg (by
        rintro ⟨hp, -⟩
        simp only [twoStar, List.cons_append, List.isPrefixOf,
          Bool.and_eq_true, beq_iff_eq] at hp
        exact ha hp.2.1.symm)]
      rw [if_pos]
      · show (innerSlice 1 ('*' :: (a :: b ++ ['*']))) = a :: b
        unfold innerSlice
        show ((a :: b) ++ ['*']).take (((a :: b) ++ ['*']).length - 1) = a :: b
        simp only [List.length_append, List.length_singleton, Nat.add_sub_cancel]
        exact List.take_left' rfl
      · constructor
        · simp [List.isPrefixOf]
        · exact List.isSuffixOf_iff_suffix.mpr ⟨'*' :: a :: b, by simp⟩

theorem dispatchRun_plain (c : Char) (r : Str) (hc : isInlineDelim c = false) :
    dispatchRun (c :: r) = { text := c :: r } := by
  simp only [isInlineDelim, Bool.or_eq_false_iff, decide_eq_false_iff_not] at hc
  unfold dispatchRun
  rw [if_neg (by
      rintro ⟨hp, -⟩; simp [twoStar, List.isPrefixOf] at hp; exact hc.1.1 hp.1.symm),
    if_neg (by rintro ⟨hp, -⟩; simp [List.isPrefixOf] at hp; exact hc.1.1 hp.symm),
    if_neg (by
      rintro ⟨hp, -⟩; simp [twoTilde, List.isPrefixOf] at hp; exact hc.1.2 hp.1.symm),
    if_neg (by rintro ⟨hp, -⟩; simp [List.isPrefixOf] at hp; exact hc.2 hp.symm)]

theorem dispatchRun_twoStar : dispatchRun twoStar = { text := [], bold := true } := by
  decide

/-- The emitted run text agrees, case for case, with the claim-side
pair-removal scan. -/
theorem runsText_processInlineGo_eq (fuel : Nat) :
    ∀ s, runsText (processInlineGo fuel s) = claimStripGo fuel s := by
  induction fuel with
  | zero => intro s; rfl
  | succ fuel ih =>
      intro s
      cases s with
      | nil => rfl
      | cons c t =>
          by_cases hc1 : c = '*'
          · subst hc1
            cases t with
            | nil => exact ih []
            | cons c2 t2 =>
                by_cases hc2 : c2 = '*'
                · subst hc2
                  show runsText (match tryInline ('*' :: '*' :: t2) with
                      | some (content, rest) =>
                          dispatchRun content :: processInlineGo fuel rest
                      | none => processInlineGo fuel ('*' :: t2)) =
                    (match subIdx twoStar (sameLine t2) with
                      | some j => t2.take j ++ claimStripGo fuel (t2.drop (j + 2))
                      | none => claimStripGo fuel t2)
                  rw [show tryInline ('*' :: '*' :: t2)
                      = (match subIdx twoStar (sameLine t2) with
                        | some j =>
                            some ('*' :: '*' :: (t2.take j ++ twoStar), t2.drop (j + 2))
                        | none => some (twoStar, t2)) from rfl]
                  cases hs : subIdx twoStar (sameLine t2) with
                  | some j =>
                      show runsText (dispatchRun ('*' :: '*' :: (t2.take j ++ twoStar))
                          :: processInlineGo fuel (t2.drop (j + 2)))
                        = t2.take j ++ claimStripGo fuel (t2.drop (j + 2))
                      simp only [runsText, dispatchRun_bold]
                      rw [ih]
                  | none =>
                      show runsText (dispatchRun twoStar :: processInlineGo fuel t2)
                        = claimStripGo fuel t2
                      simp only [runsText, dispatchRun_twoStar]
                      simpa using ih t2
                · show runsText (match tryInline ('*' :: c2 :: t2) with
                      | some (content, rest) =>
                          dispatchRun content :: processInlineGo fuel rest
                      | none => processInlineGo fuel (c2 :: t2)) =
                    claimStripGo (fuel + 1) ('*' :: c2 :: t2)
                  rw [show tryInline ('*' :: c2 :: t2)
                      = (if c2 = '*' then
                          (match subIdx twoStar (sameLine t2) with
                            | some j =>
                                some ('*' :: '*' :: (t2.take j ++ twoStar), t2.drop (j + 2))
                            | none => some (twoStar, t2))
                        else tryStarSingle (c2 :: t2)) from rfl,
                    if_neg hc2]
                  rw [show claimStripGo (fuel + 1) ('*' :: c2 :: t2)
                      = (if c2 = '*' then
                          (match subIdx twoStar (sameLine t2) with
                            | some j => t2.take j ++ claimStripGo fuel (t2.drop (j + 2))
                            | none => claimStripGo fuel t2)
                        else
                          (match subIdx ['*'] (sameLine (c2 :: t2)) with
                            | some j => (c2 :: t2).take j
                                ++ claimStripGo fuel ((c2 :: t2).drop (j + 1))
                            | none => claimStripGo fuel (c2 :: t2))) from rfl,
                    if_neg hc2]
                  unfold tryStarSingle
                  cases hs : subIdx ['*'] (sameLine (c2 :: t2)) with
                  | some j =>
                      show runsText (dispatchRun ('*' :: ((c2 :: t2).take j ++ ['*']))
                          :: processInlineGo fuel ((c2 :: t2).drop (j + 1)))
                        = (c2 :: t2).take j ++ claimStripGo fuel ((c2 :: t2).drop (j + 1))
                      have hxle : j ≤ (sameLine (c2 :: t2)).length := by
                        have := subIdx_le ['*'] (sameLine (c2 :: t2)) j hs
                        simp only [List.length_cons, List.length_nil] at this
                        omega
                      have htake : (c2 :: t2).take j = (sameLine (c2 :: t2)).take j :=
                        take_of_takeWhile_le _ _ _ hxle
                      have hx : ∀ ch ∈ (c2 :: t2).take j, ch ≠ '*' := by
                        rw [htake]
                        exact subIdx_singleton_take '*' (sameLine (c2 :: t2)) j hs
                      simp only [runsText]
                      rw [dispatchRun_star_text _ hx, ih]
                  | none => exact ih (c2 :: t2)
          · by_cases hc2 : c = '~'
            · subst hc2
              cases t with
              | nil => exact ih []
              | cons c2 t2 =>
                  by_cases hc3 : c2 = '~'
                  · subst hc3
                    show runsText (match tryInline ('~' :: '~' :: t2) with
                        | some (content, rest) =>
                            dispatchRun content :: processInlineGo fuel rest
                        | none => processInlineGo fuel ('~' :: t2)) =
                      (match subIdx twoTilde (sameLine t2) with
                        | some j => t2.take j ++ claimStripGo fuel (t2.drop (j + 2))
                        | none => claimStripGo fuel ('~' :: t2))
                    rw [show tryInline ('~' :: '~' :: t2)
                        = (match subIdx twoTilde (sameLine t2) with
                          | some j =>
                              some ('~' :: '~' :: (t2.take j ++ twoTilde), t2.drop (j + 2))
                          | none => none) from rfl]
                    cases hs : subIdx twoTilde (sameLine t2) with
                    | some j =>
                        show runsText (dispatchRun ('~' :: '~' :: (t2.take j ++ twoTilde))
                            :: processInlineGo fuel (t2.drop (j + 2)))
                          = t2.take j ++ claimStripGo fuel (t2.drop (j + 2))
                        simp only [runsText, dispatchRun_strike]
                        rw [ih]
                    | none => exact ih ('~' :: t2)
                  · show runsText (match tryInline ('~' :: c2 :: t2) with
                        | some (content, rest) =>
                            dispatchRun content :: processInlineGo fuel rest
                        | none => processInlineGo fuel (c2 :: t2)) =
                      claimStripGo (fuel + 1) ('~' :: c2 :: t2)
                    rw [show tryInline ('~' :: c2 :: t2)
                        = (if c2 = '~' then
                            (match subIdx twoTilde (sameLine t2) with
                              | some j => some ('~' :: '~' :: (t2.take j ++ twoTilde),
                                  t2.drop (j + 2))
                              | none => none)
                          else none) from rfl,
                      if_neg hc3]
                    rw [show claimStripGo (fuel + 1) ('~' :: c2 :: t2)
                        = (if c2 = '~' then
                            (match subIdx twoTilde (sameLine t2) with
                              | some j => t2.take j ++ claimStripGo fuel (t2.drop (j + 2))
                              | none => claimStripGo fuel (c2 :: t2))
                          else claimStripGo fuel (c2 :: t2)) from rfl,
                      if_neg hc3]
                    exact ih (c2 :: t2)
            · by_cases hc3 : c = backquoteChar
              · subst hc3
                cases t with
                | nil => exact ih []
                | cons c1 t3 =>
                    show runsText (match tryInline (backquoteChar :: c1 :: t3) with
                        | some (content, rest) =>
                            dispatchRun content :: processInlineGo fuel rest
                        | none => processInlineGo fuel (c1 :: t3)) =
                      claimStripGo (fuel + 1) (backquoteChar :: c1 :: t3)
                    rw [show tryInline (backquoteChar :: c1 :: t3)
                        = (if c1 = '\n' then none
                          else
                            match subIdx [backquoteChar] (sameLine t3) with
                            | some j => some (backquoteChar :: c1
                                :: (t3.take j ++ [backquoteChar]), t3.drop (j + 1))
                            | none => none) from rfl]
                    rw [show claimStripGo (fuel + 1) (backquoteChar :: c1 :: t3)
                        = (if c1 = '\n' then claimStripGo fuel (c1 :: t3)
                          else
                            match subIdx [backquoteChar] (sameLine t3) with
                            | some j => (c1 :: t3.take j)
                                ++ claimStripGo fuel (t3.drop (j + 1))
                            | none => claimStripGo fuel (c1 :: t3)) from rfl]
                    by_cases hnl : c1 = '\n'
                    · rw [if_pos hnl, if_pos hnl]
                      exact ih (c1 :: t3)
                    · rw [if_neg hnl, if_neg hnl]
                      cases hs : subIdx [backquoteChar] (sameLine t3) with
                      | some j =>
                          show runsText (dispatchRun (backquoteChar :: c1
                              :: (t3.take j ++ [backquoteChar]))
                              :: processInlineGo fuel (t3.drop (j + 1)))
                            = (c1 :: t3.take j) ++ claimStripGo fuel (t3.drop (j + 1))
                          simp only [runsText, dispatchRun_code]
                          rw [ih]
                      | none => exact ih (c1 :: t3)
              · have hnd : isInlineDelim c = false := by
                  simp [isInlineDelim, hc1, hc2, hc3]
                show runsText (match tryInline (c :: t) with
                    | some (content, rest) =>
                        dispatchRun content :: processInlineGo fuel rest
                    | none => processInlineGo fuel t) =
                  claimStripGo (fuel + 1) (c :: t)
                rw [show tryInline (c :: t)
                    = (if c = '*' then
                        (match t with
                          | [] => tryStarSingle []
                          | c2 :: t2 =>
                              if c2 = '*' then
                                match subIdx twoStar (sameLine t2) with
                                | some j => some ('*' :: '*' :: (t2.take j ++ twoStar),
                                    t2.drop (j + 2))
                                | none => some (twoStar, t2)
                              else tryStarSingle (c2 :: t2))
                      else if c = '~' then
                        (match t with
                          | [] => none
                          | c2 :: t2 =>
                              if c2 = '~' then
                                match subIdx twoTilde (sameLine t2) with
                                | some j => some ('~' :: '~' :: (t2.take j ++ twoTilde),
                                    t2.drop (j + 2))
                                | none => none
                              else none)
                      else if c = backquoteChar then
                        (match t with
                          | [] => none
                          | c1 :: t3 =>
                              if c1 = '\n' then none
                              else
                                match subIdx [backquoteChar] (sameLine t3) with
                                | some j => some (backquoteChar :: c1
                                    :: (t3.take j ++ [backquoteChar]), t3.drop (j + 1))
                                | none => none)
                      else
                        some ((c :: t).takeWhile (fun x => !isInlineDelim x),
                          (c :: t).dropWhile (fun x => !isInlineDelim x))) from rfl,
                  if_neg hc1, if_neg hc2, if_neg hc3]
                rw [show claimStripGo (fuel + 1) (c :: t)
                    = (if c = '*' then
                        (match t with
                          | [] => claimStripGo fuel []
                          | c2 :: t2 =>
                              if c2 = '*' then
                                match subIdx twoStar (sameLine t2) with
                                | some j => t2.take j ++ claimStripGo fuel (t2.drop (j + 2))
                                | none => claimStripGo fuel t2
                              else
                                match subIdx ['*'] (sameLine (c2 :: t2)) with
                                | some j => (c2 :: t2).take j
                                    ++ claimStripGo fuel ((c2 :: t2).drop (j + 1))
                                | none => claimStripGo fuel (c2 :: t2))
                      else if c = '~' then
                        (match t with
                          | [] => claimStripGo fuel []
                          | c2 :: t2 =>
                              if c2 = '~' then
                                match subIdx twoTilde (sameLine t2) with
                                | some j => t2.take j ++ claimStripGo fuel (t2.drop (j + 2))
                                | none => claimStripGo fuel (c2 :: t2)
                              else claimStripGo fuel (c2 :: t2))
                      else if c = backquoteChar then
                        (match t with
                          | [] => claimStripGo fuel []
                          | c1 :: t3 =>
                              if c1 = '\n' then claimStripGo fuel (c1 :: t3)
                              else
                                match subIdx [backquoteChar] (sameLine t3) with
                                | some j => (c1 :: t3.take j)
                                    ++ claimStripGo fuel (t3.drop (j + 1))
                                | none => claimStripGo fuel (c1 :: t3))
                      else (c :: t).takeWhile (fun x => !isInlineDelim x) ++
                        claimStripGo fuel ((c :: t).dropWhile (fun x => !isInlineDelim x)))
                    from rfl,
                  if_neg hc1, if_neg hc2, if_neg hc3]
                have hcontent : (c :: t).takeWhile (fun x => !isInlineDelim x)
                    = c :: t.takeWhile (fun x => !isInlineDelim x) := by
                  rw [List.takeWhile_cons]
                  simp [hnd]
                show (dispatchRun ((c :: t).takeWhile (fun x => !isInlineDelim x))).text
                    ++ runsText (processInlineGo fuel
                      ((c :: t).dropWhile (fun x => !isInlineDelim x)))
                  = (c :: t).takeWhile (fun x => !isInlineDelim x) ++
                    claimStripGo fuel ((c :: t).dropWhile (fun x => !isInlineDelim x))
                rw [ih, hcontent, dispatchRun_plain c _ hnd]

theorem takeWhile_of_all (p : Char → Bool) :
    ∀ s : Str, (∀ c ∈ s, p c = true) → s.takeWhile p = s := by
  intro s
  induction s with
  | nil => intro _; rfl
  | cons c t ih =>
      intro h
      rw [List.takeWhile_cons, if_pos (h c (List.mem_cons_self _ _)),
        ih (fun d hd => h d (List.mem_cons_of_mem _ hd))]

theorem dropWhile_of_all (p : Char → Bool) :
    ∀ s : Str, (∀ c ∈ s, p c = true) → s.dropWhile p = [] := by
  intro s
  induction s with
  | nil => intro _; rfl
  | cons c t ih =>
      intro h
      rw [List.dropWhile_cons, if_pos (h c (List.mem_cons_self _ _))]
      exact ih (fun d hd => h d (List.mem_cons_of_mem _ hd))

theorem processInlineGo_nil (fuel : Nat) : processInlineGo fuel [] = [] := by
  cases fuel <;> rfl

/-- C10: `_process_inline_formatting` drops unpaired delimiters and
keeps paired spans' text — (1) a nonempty text free of `*`, `~`, `` ` ``
is emitted as one unmodified, unformatted run, and (2) for every text
the concatenated run text equals the claim-side pair-removal
`claimStrip` (complete `**`/`*`/`~~`/`` ` `` pairs removed with their
enclosed text kept; delimiter characters without a complete pair
dropped, never rendered literally; all other characters unchanged). -/
theorem c10_inline_formatting (s : Str) :
    (s ≠ [] → (∀ c ∈ s, isInlineDelim c = false) →
      process_inline_formatting s
        = [{ text := s, bold := false, italic := false, strike := false,
             courier := false }]) ∧
    runsText (process_inline_formatting s) = claimStrip s := by
  constructor
  · intro hne hall
    cases s with
    | nil => exact absurd rfl hne
    | cons c t =>
        have hnd : isInlineDelim c = false := hall c (List.mem_cons_self _ _)
        have hc1 : c ≠ '*' := by
          intro h; rw [h] at hnd; simp [isInlineDelim] at hnd
        have hc2 : c ≠ '~' := by
          intro h; rw [h] at hnd; simp [isInlineDelim] at hnd
        have hc3 : c ≠ backquoteChar := by
          intro h; rw [h] at hnd; simp [isInlineDelim] at hnd
        have hall' : ∀ d ∈ c :: t, (fun x => !isInlineDelim x) d = true := by
          intro d hd
          simp [hall d hd]
        have htry : tryInline (c :: t) = some (c :: t, []) := by
          have h0 : tryInline (c :: t)
              = some ((c :: t).takeWhile (fun x => !isInlineDelim x),
                  (c :: t).dropWhile (fun x => !isInlineDelim x)) := by
            simp only [tryInline]
            rw [if_neg hc1, if_neg hc2, if_neg hc3]
          rw [h0, takeWhile_of_all _ _ hall', dropWhile_of_all _ _ hall']
        show (match tryInline (c :: t) with
            | some (content, rest) => dispatchRun content :: processInlineGo t.length rest
            | none => processInlineGo t.length t)
          = [{ text := c :: t, bold := false, italic := false, strike := false,
               courier := false }]
        rw [htry]
        show dispatchRun (c :: t) :: processInlineGo t.length [] = _
        rw [processInlineGo_nil, dispatchRun_plain c t hnd]
  · exact runsText_processInlineGo_eq s.length s

theorem c10_inline_formatting_witness :
    process_inline_formatting "plain text".data
      = [{ text := "plain text".data, bold := false, italic := false, strike := false,
           courier := false }] ∧
    runsText (process_inline_formatting "**bold** x *i* `c` ~~s~ y".data)
      = claimStrip "**bold** x *i* `c` ~~s~ y".data :=
  ⟨(c10_inline_formatting "plain text".data).1 (by decide) (by decide),
   (c10_inline_formatting "**bold** x *i* `c` ~~s~ y".data).2⟩

/-! ### C8: no persistent state across calls
(simple_improved_converter.py lines 28-71 and 338-372)

`SimpleImprovedConverter.convert` and `validate_markdown` read the
instance's fields (`template_path`, the managers' configuration, the
`markdown` parser) but assign none of them; each call builds a fresh
`Document`. The instance is embedded as an explicit state record —
external collaborators (the `markdown` library, the filesystem lookups
of `TemplateManager`) are pure oracles per the spec's black-box
contract — and each method returns its result together with the state
it leaves behind. -/

/-- The metadata dictionary keys `_add_metadata` copies. -/
structure MetadataDict where
  title : Option String := none
  author : Option String := none
  subject : Option String := none
  keywords : Option String := none
  comments : Option String := none
deriving Repr, DecidableEq

/-- The fields of a `SimpleImprovedConverter` instance (configuration
set in `__init__`) together with the oracles for its external
collaborators. -/
structure SimpleConverterState where
  template_path : Option String
  template_dirs : Option (List String)
  base_path : Option String
  mermaid_available : Bool
  mermaidOutcome : Str → Bool
  imageOutcome : Str → Str → Bool
  style_map : List (MarkdownElement × WordStyle)
  md : Str → Str
  getTemplatePath : String → Option String
  validateTemplate : String → Bool

/-- What a `convert` call determines about the produced document. -/
structure SimpleConvertResult where
  docTemplate : Option String
  coreProps : Option MetadataDict
  processedText : Str
  html : Str

/-- `SimpleImprovedConverter.convert`, state-passing: every field the
source could assign is threaded through and returned. The source's body
assigns no instance field, so the state is returned as received. -/
def SimpleImprovedConverter_convert (st : SimpleConverterState)
    (markdown_content : Str) (metadata : Option MetadataDict)
    (template_name : Option String) : SimpleConvertResult × SimpleConverterState :=
  let template_path :=
    match template_name with
    | some n => st.getTemplatePath n
    | none => st.template_path
  let docTemplate :=
    match template_path with
    | some p => if st.validateTemplate p then some p else none
    | none => none
  let pre := preprocess_markdown markdown_content
  let processed1 := process_images st.imageOutcome pre
  let processed2 := process_mermaid st.mermaid_available st.mermaidOutcome processed1
  let html := st.md processed2
  ({ docTemplate := docTemplate
     coreProps := metadata
     processedText := processed2
     html := html }, st)

/-- The `features` dictionary of `validate_markdown`. -/
structure ValidationFeatures where
  tables : Bool
  code_blocks : Bool
  headers : Bool
  lists : Bool
  emphasis : Bool
  links : Bool
  images : Bool
  task_lists : Bool
  strikethrough : Bool
deriving Repr, DecidableEq

/-- The dictionary `validate_markdown` returns (the modelled `markdown`
parser is total, so the `except` branch is unreachable and `valid` is
`true`). -/
structure ValidationResult where
  valid : Bool
  features_detected : ValidationFeatures
  html_preview : Str

/-- `SimpleImprovedConverter.validate_markdown`, state-passing. -/
def SimpleImprovedConverter_validate_markdown (st : SimpleConverterState)
    (markdown_content : Str) : ValidationResult × SimpleConverterState :=
  let processed := preprocess_markdown markdown_content
  let html := st.md processed
  ({ valid := true
     features_detected :=
       { tables := occursIn "<table>".data html
         code_blocks := occursIn "<pre>".data html || occursIn "<code>".data html
         headers := occursIn "<h1>".data html || occursIn "<h2>".data html
           || occursIn "<h3>".data html || occursIn "<h4>".data html
           || occursIn "<h5>".data html || occursIn "<h6>".data html
         lists := occursIn "<ul>".data html || occursIn "<ol>".data html
         emphasis := occursIn "<em>".data html || occursIn "<strong>".data html
         links := occursIn "<a href=".data html
         images := occursIn "<img".data html
         task_lists := occursIn "☑".data processed || occursIn "☐".data processed
         strikethrough := occursIn "<del>".data html }
     html_preview :=
       if 500 < html.length then html.take 500 ++ "...".data else html }, st)

/-- C8: conversion holds no persistent state — `convert` and
`validate_markdown` leave the converter state exactly as received, so a
second call with the same arguments returns the same document content
and the same result dictionary as the first. -/
theorem c8_no_persistent_state (st : SimpleConverterState) (content : Str)
    (metadata : Option MetadataDict) (template_name : Option String) :
    (SimpleImprovedConverter_convert st content metadata template_name).2 = st ∧
    SimpleImprovedConverter_convert
        (SimpleImprovedConverter_convert st content metadata template_name).2
        content metadata template_name
      = SimpleImprovedConverter_convert st content metadata template_name ∧
    (SimpleImprovedConverter_validate_markdown st content).2 = st ∧
    SimpleImprovedConverter_validate_markdown
        (SimpleImprovedConverter_validate_markdown st content).2 content
      = SimpleImprovedConverter_validate_markdown st content :=
  ⟨rfl, rfl, rfl, rfl⟩
